import Mathlib

/-!
Verification development for the Gromov-Wasserstein solver family of the POT
(Python Optimal Transport) library, against its natural-language specification.

The repository snapshot contains only the test-suite (`test/test_gromov.py`) and a
demo script; the `ot.gromov` solver module itself, together with the `ot.emd` and
`ot.sinkhorn` primitives it composes, is not part of the snapshot.  Those solvers
are therefore modelled here from the specification (sections 3 to 4.7 of the spec):
every definition whose doc string starts with `Modelled from the spec:` embeds a
component whose source is missing, staying as close as the spec's wording allows.
Matrices are lists of rows of rationals, marginals are lists of rationals, and all
recursion is structural (fuel-indexed) so that every definition evaluates on
concrete inputs.
-/

/-- Marginals and matrix rows: lists of rationals. -/
abbrev Vec := List ℚ

/-- Matrices: lists of rows. -/
abbrev Mat := List (List ℚ)

/-- Elementwise sum of two vectors (zipped). -/
def vecAdd (u v : Vec) : Vec := List.zipWith (· + ·) u v

/-- Scalar multiple of a vector. -/
def smulVec (c : ℚ) (u : Vec) : Vec := u.map (fun x => c * x)

/-- Dot product of two vectors. -/
def dotp (u v : Vec) : ℚ := (List.zipWith (· * ·) u v).sum

/-- Scalar multiple of a matrix. -/
def smulMat (c : ℚ) (A : Mat) : Mat := A.map (smulVec c)

/-- Elementwise sum of two matrices. -/
def matAdd (A B : Mat) : Mat := List.zipWith vecAdd A B

/-- Elementwise difference of two matrices. -/
def matSub (A B : Mat) : Mat := List.zipWith (List.zipWith (· - ·)) A B

/-- Elementwise quotient of two matrices. -/
def matDivEntry (A B : Mat) : Mat := List.zipWith (List.zipWith (· / ·)) A B

/-- Row sums of a matrix: the coupling's first marginal. -/
def rowSums (A : Mat) : Vec := A.map List.sum

/-- Column sums of a matrix: the coupling's second marginal. -/
def colSums : Mat → Vec
  | [] => []
  | [r] => r
  | r :: s :: rest => vecAdd r (colSums (s :: rest))

/-- Frobenius inner product of two matrices. -/
def frobDot (A B : Mat) : ℚ := (List.zipWith dotp A B).sum

/-- Entry of a matrix, with default 0 outside the stored range. -/
def matGet (A : Mat) (i j : Nat) : ℚ := (A.getD i []).getD j 0

/-- A matrix has `m` rows, each of length `n`. -/
def isShape (A : Mat) (m n : Nat) : Prop := A.length = m ∧ ∀ r ∈ A, r.length = n

/-- Transpose of a matrix (width taken from the first row). -/
def matTranspose : Mat → Mat
  | [] => []
  | r :: rest => (List.range r.length).map (fun j => (r :: rest).map (fun row => row.getD j 0))

/-- Matrix product. -/
def matMul (A B : Mat) : Mat := A.map (fun r => (matTranspose B).map (fun c => dotp r c))

/-- Map a scalar function over every entry of a matrix. -/
def matMap (f : ℚ → ℚ) (A : Mat) : Mat := A.map (fun r => r.map f)

/-- Outer product of two marginals: the independent coupling. -/
def outerProd (p q : Vec) : Mat := p.map (fun a => q.map (fun b => a * b))

/-- The all-zero matrix of a given shape. -/
def zeroMat (m n : Nat) : Mat := List.replicate m (List.replicate n 0)

/-- The uniform marginal on `n` points (`ot.unif`). -/
def unif (n : Nat) : Vec := List.replicate n ((n : ℚ))⁻¹

/-- Maximum of a list of rationals, with floor 0 (used for residuals of
nonnegative error lists). -/
def listMax (l : List ℚ) : ℚ := l.foldr max 0

/-- Matrix-vector product. -/
def matVec (K : Mat) (v : Vec) : Vec := K.map (fun r => dotp r v)

/-- Elementwise quotient of two vectors. -/
def vecDiv (a d : Vec) : Vec := List.zipWith (· / ·) a d

/-- Largest absolute entrywise difference between two matrices. -/
def matDist (A B : Mat) : ℚ :=
  listMax ((List.zipWith (fun r s => List.zipWith (fun x y => |x - y|) r s) A B).foldr
    (· ++ ·) [])

/-- North-west-corner construction of a feasible coupling, fuel-indexed so that the
zig-zag recursion is structural.  With fuel at least `a.length + b.length` it
allocates, cell by cell, the largest mass compatible with the remaining row and
column masses. -/
def nwRec : Nat → Vec → Vec → Mat
  | 0, _, _ => []
  | _ + 1, [], _ => []
  | fuel + 1, _ :: as, [] => [] :: nwRec fuel as []
  | fuel + 1, a :: as, b :: bs =>
    if a ≤ b then
      (a :: List.replicate bs.length 0) :: nwRec fuel as ((b - a) :: bs)
    else
      match nwRec fuel ((a - b) :: as) bs with
      | [] => []
      | r :: rest => (b :: r) :: rest.map (fun row => 0 :: row)

/-- North-west-corner coupling of two marginals: a basic feasible solution of the
transportation polytope (a vertex, as a network-simplex-style solver produces). -/
def nwcorner (a b : Vec) : Mat := nwRec (a.length + b.length) a b

/-- Modelled from the spec: `ot.emd`, the ExactTransportSolver of spec section 4.1,
is not in the snapshot.  It is modelled as a feasible-coupling constructor that
returns the cheaper (for the given cost matrix) of two feasible couplings: the
north-west-corner vertex and the independent coupling, preferring the vertex on
ties as a combinatorial network-simplex-style solver returns a basic solution.
Full linear-programming optimality of the missing source is not modelled; the
theorems below use only feasibility and the candidate-minimality of the result. -/
def emd (a b : Vec) (M : Mat) : Mat :=
  let g := nwcorner a b
  let o := outerProd a b
  if frobDot M o < frobDot M g then o else g

/-- A loss kernel in the rank-one-decomposed form of spec section 3: the pairwise
loss is `L a b = f1 a + f2 b - h1 a * h2 b`, enabling the factorized gradient
evaluation the spec prescribes. -/
structure LossKernel where
  f1 : ℚ → ℚ
  f2 : ℚ → ℚ
  h1 : ℚ → ℚ
  h2 : ℚ → ℚ

/-- The square loss kernel: `(a-b)^2 = a^2 + b^2 - a*(2*b)`. -/
def square_loss : LossKernel :=
  { f1 := fun a => a ^ 2, f2 := fun b => b ^ 2, h1 := fun a => a, h2 := fun b => 2 * b }

/-- The pairwise loss encoded by a kernel. -/
def kernelLoss (K : LossKernel) (a b : ℚ) : ℚ := K.f1 a + K.f2 b - K.h1 a * K.h2 b

/-- The pointwise square loss, as the spec's objective states it. -/
def sqLoss (a b : ℚ) : ℚ := (a - b) ^ 2

/-- Constant part of the factorized gradient tensor:
`constC i j = Σ_k f1 (C1 i k) * p k + Σ_l f2 (C2 j l) * q l`. -/
def constCmat (K : LossKernel) (C1 C2 : Mat) (p q : Vec) : Mat :=
  C1.map (fun r1 => C2.map (fun r2 => dotp (r1.map K.f1) p + dotp (r2.map K.f2) q))

/-- Bilinear part of the factorized gradient tensor: `h1(C1) · X · h2(C2)ᵀ`. -/
def hGh (K : LossKernel) (C1 C2 : Mat) (X : Mat) : Mat :=
  matMul (matMul (matMap K.h1 C1) X) (matTranspose (matMap K.h2 C2))

/-- The contracted gradient tensor `tens(G) = constC - h1(C1)·G·h2(C2)ᵀ` of spec
section 4.3 (rank-one decomposition of the loss kernel). -/
def gwTens (K : LossKernel) (C1 C2 : Mat) (p q : Vec) (G : Mat) : Mat :=
  matSub (constCmat K C1 C2 p q) (hGh K C1 C2 G)

/-- The factorized Gromov-Wasserstein objective `⟨tens(G), G⟩`. -/
def gwlossF (K : LossKernel) (C1 C2 : Mat) (p q : Vec) (G : Mat) : ℚ :=
  frobDot (gwTens K C1 C2 p q G) G

/-- The fused objective of spec section 4.6:
`(1-α)·⟨G,M⟩ + α·(GW objective)`. -/
def fgwObj (alpha : ℚ) (M : Mat) (K : LossKernel) (C1 C2 : Mat) (p q : Vec) (G : Mat) : ℚ :=
  (1 - alpha) * frobDot M G + alpha * gwlossF K C1 C2 p q G

/-- The gradient of the fused objective: `(1-α)·M + α·2·tens(G)`. -/
def fgwGrad (alpha : ℚ) (M : Mat) (K : LossKernel) (C1 C2 : Mat) (p q : Vec) (G : Mat) : Mat :=
  matAdd (smulMat (1 - alpha) M) (smulMat (2 * alpha) (gwTens K C1 C2 p q G))

/-- Closed-form minimizer over `[0,1]` of the quadratic `γ ↦ a·γ² + b·γ`
(spec section 4.3: line-searched step size minimizing the quadratic objective
along the segment). -/
def lineSearchGamma (a b : ℚ) : ℚ :=
  if 0 < a then min 1 (max 0 (-b / (2 * a))) else if a + b < 0 then 1 else 0

/-- Quadratic coefficient of the fused objective along `G + γ·Δ`. -/
def lsCoeffA (alpha : ℚ) (K : LossKernel) (C1 C2 : Mat) (Δ : Mat) : ℚ :=
  -alpha * frobDot (hGh K C1 C2 Δ) Δ

/-- Linear coefficient of the fused objective along `G + γ·Δ`. -/
def lsCoeffB (alpha : ℚ) (M : Mat) (K : LossKernel) (C1 C2 : Mat) (p q : Vec)
    (G Δ : Mat) : ℚ :=
  (1 - alpha) * frobDot M Δ +
    alpha * (frobDot (constCmat K C1 C2 p q) Δ - frobDot (hGh K C1 C2 G) Δ -
      frobDot (hGh K C1 C2 Δ) G)

/-- Convex (affine) combination of two couplings: `(1-γ)·G + γ·E`. -/
def combStep (γ : ℚ) (G E : Mat) : Mat := matAdd (smulMat (1 - γ) G) (smulMat γ E)

/-- Result of a conditional-gradient run: final coupling, whether the tolerance
test stopped the loop, and the number of outer iterations performed. -/
structure CGResult where
  T : Mat
  converged : Bool
  iters : Nat
  deriving DecidableEq

/-- Modelled from the spec: one conditional-gradient (Frank-Wolfe) loop, spec
sections 4.3 and 4.6, shared by `gromov_wasserstein` and
`fused_gromov_wasserstein` of the missing `ot.gromov` module.  Each outer
iteration contracts the gradient tensor, solves the linearized transport
subproblem through `emd`, takes the closed-form step minimizing the quadratic
objective along the segment, and stops when the objective change falls within
the relative tolerance or the iteration cap is reached. -/
def cgLoop (p q : Vec) (M : Mat) (K : LossKernel) (C1 C2 : Mat) (alpha tol : ℚ) :
    Nat → Nat → Mat → ℚ → CGResult
  | 0, done, G, _ => ⟨G, false, done⟩
  | fuel + 1, done, G, fG =>
    let grd := fgwGrad alpha M K C1 C2 p q G
    let E := emd p q grd
    let Δ := matSub E G
    let γ := lineSearchGamma (lsCoeffA alpha K C1 C2 Δ) (lsCoeffB alpha M K C1 C2 p q G Δ)
    let G2 := combStep γ G E
    let fG2 := fgwObj alpha M K C1 C2 p q G2
    if |fG2 - fG| ≤ tol * |fG2| then ⟨G2, true, done + 1⟩
    else cgLoop p q M K C1 C2 alpha tol fuel (done + 1) G2 fG2

/-- Conditional-gradient run from the independent coupling `p·qᵀ`. -/
def cgRun (p q : Vec) (M : Mat) (K : LossKernel) (C1 C2 : Mat) (alpha : ℚ)
    (fuel : Nat) (tol : ℚ) : CGResult :=
  cgLoop p q M K C1 C2 alpha tol fuel 0 (outerProd p q)
    (fgwObj alpha M K C1 C2 p q (outerProd p q))

/-- Modelled from the spec: `ot.gromov.gromov_wasserstein` (spec section 4.3), the
conditional-gradient solver of the pure structure objective; the missing source
is modelled as the shared loop with no linear term and mixing weight 1. -/
def gromov_wasserstein (C1 C2 : Mat) (p q : Vec) (K : LossKernel) (fuel : Nat)
    (tol : ℚ) : Mat :=
  (cgRun p q (zeroMat p.length q.length) K C1 C2 1 fuel tol).T

/-- Modelled from the spec: `ot.gromov.fused_gromov_wasserstein` (spec section
4.6), the same conditional-gradient loop with the gradient augmented by the
constant linear term `(1-α)·M`. -/
def fused_gromov_wasserstein (M C1 C2 : Mat) (p q : Vec) (K : LossKernel)
    (alpha : ℚ) (fuel : Nat) (tol : ℚ) : Mat :=
  (cgRun p q M K C1 C2 alpha fuel tol).T

/-- Diagnostics record of a `*_2` solver call (spec section 6: the log holds the
coupling under key `T` together with the scalar distance). -/
structure GWLog where
  T : Mat
  gw_dist : ℚ
  deriving DecidableEq

/-- Modelled from the spec: `ot.gromov.gromov_wasserstein2`, the scalar-distance
variant; it returns the objective value of the final coupling, together with the
diagnostics record when `logFlag` is set. -/
def gromov_wasserstein2 (C1 C2 : Mat) (p q : Vec) (K : LossKernel) (fuel : Nat)
    (tol : ℚ) (logFlag : Bool) : ℚ × Option GWLog :=
  let G := gromov_wasserstein C1 C2 p q K fuel tol
  let d := gwlossF K C1 C2 p q G
  (d, if logFlag then some ⟨G, d⟩ else none)

/-- Modelled from the spec: the checked API boundary of spec section 7 -
dimension mismatches are fatal and raised before any iteration, while
non-convergence is reported through the returned log. -/
inductive SolverError where
  | dimensionMismatch
  deriving DecidableEq

/-- Validity of the shapes of a Gromov-Wasserstein problem instance. -/
def gwShapeOk (C1 C2 : Mat) (p q : Vec) : Bool :=
  decide (C1.length = p.length) && decide (∀ r ∈ C1, r.length = p.length) &&
  decide (C2.length = q.length) && decide (∀ r ∈ C2, r.length = q.length)

/-- Modelled from the spec: the `gromov_wasserstein` entry point with the fatal
shape check of spec section 7 in front of the iterative loop; when the iteration
cap is reached without meeting the tolerance the best iterate so far is still
returned and the log's `converged` flag reports the non-convergence. -/
def gromov_wasserstein_checked (C1 C2 : Mat) (p q : Vec) (K : LossKernel)
    (fuel : Nat) (tol : ℚ) : Except SolverError (Mat × Bool × Nat) :=
  if gwShapeOk C1 C2 p q then
    let r := cgRun p q (zeroMat p.length q.length) K C1 C2 1 fuel tol
    Except.ok (r.T, r.converged, r.iters)
  else
    Except.error SolverError.dimensionMismatch

/-- Modelled from the spec: the strictly positive Sinkhorn scaling kernel.  The
missing source forms `exp (-cost / ε)`, which leaves the rationals; it is
modelled by a strictly positive rational surrogate.  Only the strict positivity
of the kernel is used by the theorems below. -/
def posKernel (eps : ℚ) (C : Mat) : Mat :=
  matMap (fun c => 1 / (1 + c ^ 2 / eps)) C

/-- One Sinkhorn scaling sweep and its fuel-indexed iteration (spec section 4.2):
`u ← a ⊘ (K·v)` then `v ← b ⊘ (Kᵀ·u)`. -/
def sinkhornUV (a b : Vec) (K : Mat) : Nat → Vec × Vec → Vec × Vec
  | 0, uv => uv
  | fuel + 1, (_, v) =>
    let u2 := vecDiv a (matVec K v)
    let v2 := vecDiv b (matVec (matTranspose K) u2)
    sinkhornUV a b K fuel (u2, v2)

/-- Coupling assembled from the scaling vectors: `diag(u) · K · diag(v)`. -/
def diagScale (u : Vec) (K : Mat) (v : Vec) : Mat :=
  List.zipWith (fun ui r => List.zipWith (fun kij vj => ui * (kij * vj)) r v) u K

/-- Marginal residual of a coupling, the stopping quantity of spec section 4.2:
the largest deviation of the row sums from `a` and of the column sums from `b`. -/
def sinkResidual (a b : Vec) (G : Mat) : ℚ :=
  listMax (List.zipWith (fun x y => |x - y|) (rowSums G) a ++
    List.zipWith (fun x y => |x - y|) (colSums G) b)

/-- Modelled from the spec: `ot.sinkhorn` (spec section 4.2) on an explicitly
given positive kernel, returning the scaled coupling together with the
convergence flag (whether the marginal residual fell below the tolerance). -/
def sinkhorn (a b : Vec) (K : Mat) (fuel : Nat) (tol : ℚ) : Mat × Bool :=
  let uv := sinkhornUV a b K fuel (List.replicate a.length 1, List.replicate b.length 1)
  let G := diagScale uv.1 K uv.2
  (G, decide (sinkResidual a b G < tol))

/-- Modelled from the spec: one outer step of the entropic solver of spec section
4.4 - the linearized subproblem (gradient tensor as cost) is solved by a Sinkhorn
run whose output replaces the iterate. -/
def egwStep (C1 C2 : Mat) (p q : Vec) (K : LossKernel) (eps : ℚ)
    (innerFuel : Nat) (innerTol : ℚ) (T : Mat) : Mat × Bool :=
  sinkhorn p q (posKernel eps (smulMat 2 (gwTens K C1 C2 p q T))) innerFuel innerTol

/-- Fuel-indexed outer loop of the entropic solver, stopping when the iterate
stops moving (spec section 4.4: same stopping rule as 4.3). -/
def egwLoop (C1 C2 : Mat) (p q : Vec) (K : LossKernel) (eps : ℚ)
    (innerFuel : Nat) (innerTol tol : ℚ) : Nat → Mat × Bool → Mat × Bool
  | 0, st => st
  | fuel + 1, st =>
    let r := egwStep C1 C2 p q K eps innerFuel innerTol st.1
    if matDist r.1 st.1 ≤ tol then r else egwLoop C1 C2 p q K eps innerFuel innerTol tol fuel r

/-- Modelled from the spec: `ot.gromov.entropic_gromov_wasserstein` (spec section
4.4); every outer step is an entropic (Sinkhorn) solve of the linearized
subproblem.  Returns the final coupling and the convergence flag of the last
inner Sinkhorn run. -/
def entropic_gromov_wasserstein (C1 C2 : Mat) (p q : Vec) (K : LossKernel)
    (eps : ℚ) (outerFuel innerFuel : Nat) (innerTol tol : ℚ) : Mat × Bool :=
  egwLoop C1 C2 p q K eps innerFuel innerTol tol outerFuel (outerProd p q, false)

/-- Modelled from the spec: `ot.gromov.entropic_gromov_wasserstein2`, the
scalar-distance variant of the entropic solver. -/
def entropic_gromov_wasserstein2 (C1 C2 : Mat) (p q : Vec) (K : LossKernel)
    (eps : ℚ) (outerFuel innerFuel : Nat) (innerTol tol : ℚ) : ℚ :=
  gwlossF K C1 C2 p q (entropic_gromov_wasserstein C1 C2 p q K eps outerFuel innerFuel
    innerTol tol).1

/-- Linear congruential pseudo-random step: the explicit, caller-seeded random
source required of the stochastic solvers by spec section 4.5. -/
def lcg (s : Nat) : Nat := (1103515245 * s + 12345) % 2147483648

/-- Diagnostics of a stochastic solver run (spec section 4.5): the estimated
distance and the spread of the sampled values.  The spread is modelled by the
mean squared deviation, since square roots leave the rationals. -/
structure StochLog where
  gw_dist_estimated : ℚ
  gw_dist_std : ℚ
  deriving DecidableEq

/-- Mean of a list of samples (0 on no samples). -/
def sampleMean (l : List ℚ) : ℚ := l.sum / l.length

/-- Mean squared deviation of a list of samples. -/
def sampleSpread (l : List ℚ) : ℚ :=
  sampleMean (l.map (fun x => (x - sampleMean l) ^ 2))

/-- State of a stochastic solver loop: current coupling, random-generator state,
samples collected so far. -/
structure StochState where
  G : Mat
  rng : Nat
  vals : List ℚ

/-- Modelled from the spec: one update of the pointwise stochastic solver (spec
section 4.5).  The missing source's per-entry update is modelled as sampling a
pair of row and column index pairs from the explicit generator, recording the
sampled loss value, and moving the running coupling towards a sampled feasible
direction with the importance weight `alpha`; marginal constraints are preserved
because every direction is a feasible coupling. -/
def pwStep (C1 C2 : Mat) (p q : Vec) (loss : ℚ → ℚ → ℚ) (alpha : ℚ)
    (st : StochState) : StochState :=
  let m := p.length
  let n := q.length
  let s1 := lcg st.rng
  let i := s1 % m
  let s2 := lcg s1
  let j := s2 % n
  let s3 := lcg s2
  let k := s3 % m
  let s4 := lcg s3
  let l := s4 % n
  let v := loss (matGet C1 i k) (matGet C2 j l)
  let dir := if (i + j) % 2 = 0 then nwcorner p q else outerProd p q
  ⟨combStep alpha st.G dir, s4, v :: st.vals⟩

/-- Fuel-indexed loop of the pointwise stochastic solver. -/
def pwLoop (C1 C2 : Mat) (p q : Vec) (loss : ℚ → ℚ → ℚ) (alpha : ℚ) :
    Nat → StochState → StochState
  | 0, st => st
  | fuel + 1, st => pwLoop C1 C2 p q loss alpha fuel (pwStep C1 C2 p q loss alpha st)

/-- Modelled from the spec: `ot.gromov.pointwise_gromov_wasserstein` (spec section
4.5), a pure function of its inputs and the explicit seed, returning the
estimated coupling together with the estimated distance and its spread. -/
def pointwise_gromov_wasserstein (C1 C2 : Mat) (p q : Vec) (loss : ℚ → ℚ → ℚ)
    (maxIter : Nat) (alpha : ℚ) (seed : Nat) : Mat × StochLog :=
  let st := pwLoop C1 C2 p q loss alpha maxIter ⟨outerProd p q, seed, []⟩
  (st.G, ⟨sampleMean st.vals, sampleSpread st.vals⟩)

/-- Modelled from the spec: one mini-batch update of the sampled stochastic
solver (spec section 4.5): a batch of index pairs is drawn from the explicit
generator, the batch-averaged loss is recorded, and the coupling moves towards a
sampled feasible direction with a step damped by the regularization `eps`. -/
def sampStep (C1 C2 : Mat) (p q : Vec) (loss : ℚ → ℚ → ℚ) (eps : ℚ)
    (st : StochState) : StochState :=
  let m := p.length
  let n := q.length
  let s1 := lcg st.rng
  let s2 := lcg s1
  let s3 := lcg s2
  let s4 := lcg s3
  let v1 := loss (matGet C1 (s1 % m) (s2 % m)) (matGet C2 (s1 % n) (s2 % n))
  let v2 := loss (matGet C1 (s3 % m) (s4 % m)) (matGet C2 (s3 % n) (s4 % n))
  let dir := if (s2 + s4) % 2 = 0 then nwcorner p q else outerProd p q
  ⟨combStep (eps / (eps + 1)) st.G dir, s4, (v1 + v2) / 2 :: st.vals⟩

/-- Fuel-indexed loop of the sampled stochastic solver. -/
def sampLoop (C1 C2 : Mat) (p q : Vec) (loss : ℚ → ℚ → ℚ) (eps : ℚ) :
    Nat → StochState → StochState
  | 0, st => st
  | fuel + 1, st => sampLoop C1 C2 p q loss eps fuel (sampStep C1 C2 p q loss eps st)

/-- Modelled from the spec: `ot.gromov.sampled_gromov_wasserstein` (spec section
4.5), the mini-batch variant, again a pure function of its inputs and the seed. -/
def sampled_gromov_wasserstein (C1 C2 : Mat) (p q : Vec) (loss : ℚ → ℚ → ℚ)
    (maxIter : Nat) (eps : ℚ) (seed : Nat) : Mat × StochLog :=
  let st := sampLoop C1 C2 p q loss eps maxIter ⟨outerProd p q, seed, []⟩
  (st.G, ⟨sampleMean st.vals, sampleSpread st.vals⟩)

/-- Weighted sum of a list of matrices, of target shape `k × k'`. -/
def weightSum (k k' : Nat) (ws : List ℚ) (Ms : List Mat) : Mat :=
  (List.zipWith smulMat ws Ms).foldr matAdd (zeroMat k k')

/-- Modelled from the spec: the barycenter structure update of spec section 4.7 -
the weighted average of the input structures transported through their couplings,
normalized by the barycenter marginal: `(Σ_s λ_s · T_sᵀ · C_s · T_s) ⊘ (p·pᵀ)`. -/
def update_structure (p : Vec) (lambdas : List ℚ) (Ts Cs : List Mat) : Mat :=
  matDivEntry
    (weightSum p.length p.length lambdas
      (List.zipWith (fun T C => matMul (matMul (matTranspose T) C) T) Ts Cs))
    (outerProd p p)

/-- Fuel-indexed fixed-point loop of the structure barycenter. -/
def gwBaryLoop (Cs : List Mat) (ps : List Vec) (p : Vec) (lambdas : List ℚ)
    (K : LossKernel) (innerFuel : Nat) (innerTol tol : ℚ) : Nat → Mat → Mat
  | 0, C => C
  | fuel + 1, C =>
    let Ts := List.zipWith (fun Cs_s ps_s => gromov_wasserstein Cs_s C ps_s p K
      innerFuel innerTol) Cs ps
    let C2 := update_structure p lambdas Ts Cs
    if matDist C2 C ≤ tol then C2
    else gwBaryLoop Cs ps p lambdas K innerFuel innerTol tol fuel C2

/-- Modelled from the spec: `ot.gromov.gromov_barycenters` (spec section 4.7),
the alternating fixed-point barycenter solver; the missing source's random
initial structure is modelled by the deterministic initial structure `p·pᵀ`. -/
def gromov_barycenters (N : Nat) (Cs : List Mat) (ps : List Vec) (p : Vec)
    (lambdas : List ℚ) (K : LossKernel) (fuel : Nat) (tol : ℚ)
    (innerFuel : Nat) (innerTol : ℚ) : Mat :=
  gwBaryLoop Cs ps p lambdas K innerFuel innerTol tol fuel (outerProd p p)

/-- Feature dimension of a family of feature matrices. -/
def featDim (Ys : List Mat) : Nat := ((Ys.getD 0 []).getD 0 []).length

/-- Squared-Euclidean feature cost matrix between the rows of two feature
matrices (the CostModel of spec section 2 applied inside the fused barycenter). -/
def sqDistM (Y X : Mat) : Mat :=
  Y.map (fun yi => X.map (fun xj => (List.zipWith (fun u v => (u - v) ^ 2) yi xj).sum))

/-- Modelled from the spec: the feature update of spec section 4.7 - the weighted
average of the input features transported through the couplings, row-normalized
by the barycenter marginal: `diag(p)⁻¹ · Σ_s λ_s · T_sᵀ · Y_s`. -/
def update_features (p : Vec) (d : Nat) (lambdas : List ℚ) (Ts Ys : List Mat) : Mat :=
  List.zipWith (fun pi r => r.map (fun x => x / pi)) p
    (weightSum p.length d lambdas (List.zipWith (fun T Y => matMul (matTranspose T) Y) Ts Ys))

/-- Three-list zip, used by the fused barycenter loop. -/
def zip3W (f : Mat → Mat → Vec → Mat) : List Mat → List Mat → List Vec → List Mat
  | a :: as, b :: bs, c :: cs => f a b c :: zip3W f as bs cs
  | _, _, _ => []

/-- Fuel-indexed alternating loop of the fused barycenter (features and
structure), honouring the freeze flags of spec section 4.7. -/
def fgwBaryLoop (Ys Cs : List Mat) (ps : List Vec) (p : Vec) (lambdas : List ℚ)
    (alpha : ℚ) (fixed_structure fixed_features : Bool) (K : LossKernel)
    (innerFuel : Nat) (innerTol tol : ℚ) : Nat → Mat × Mat → Mat × Mat
  | 0, st => st
  | fuel + 1, (X, C) =>
    let Ts := zip3W (fun Y Cs_s ps_s => fused_gromov_wasserstein (sqDistM Y X) Cs_s C
      ps_s p K alpha innerFuel innerTol) Ys Cs ps
    let X2 := if fixed_features then X else update_features p (featDim Ys) lambdas Ts Ys
    let C2 := if fixed_structure then C else update_structure p lambdas Ts Cs
    if matDist C2 C + matDist X2 X ≤ tol then (X2, C2)
    else fgwBaryLoop Ys Cs ps p lambdas alpha fixed_structure fixed_features K
      innerFuel innerTol tol fuel (X2, C2)

/-- Modelled from the spec: `ot.gromov.fgw_barycenters` (spec section 4.7), the
fused feature+structure barycenter solver with freeze flags and caller-supplied
initial values; the missing source's random initial values are modelled by
deterministic zero features and the structure `p·pᵀ` when not frozen. -/
def fgw_barycenters (N : Nat) (Ys Cs : List Mat) (ps : List Vec)
    (lambdas : List ℚ) (alpha : ℚ) (fixed_structure : Bool) (init_C : Mat)
    (fixed_features : Bool) (init_X : Mat) (p : Vec) (K : LossKernel)
    (fuel : Nat) (tol : ℚ) (innerFuel : Nat) (innerTol : ℚ) : Mat × Mat :=
  let X0 := if fixed_features then init_X else zeroMat N (featDim Ys)
  let C0 := if fixed_structure then init_C else outerProd p p
  fgwBaryLoop Ys Cs ps p lambdas alpha fixed_structure fixed_features K
    innerFuel innerTol tol fuel (X0, C0)

/-- Validity of a pair of marginals, as spec section 3 defines a Marginal:
nonnegative entries summing to one. -/
def validMarginals (p q : Vec) : Prop :=
  (∀ x ∈ p, 0 ≤ x) ∧ (∀ x ∈ q, 0 ≤ x) ∧ p.sum = 1 ∧ q.sum = 1

/-- Wellformedness of a Sinkhorn scaling vector: the right length, nonnegative,
with at least one positive entry. -/
def okScale (n : Nat) (v : Vec) : Prop :=
  v.length = n ∧ (∀ x ∈ v, 0 ≤ x) ∧ ∃ x ∈ v, 0 < x

/-- Bounded sum `Σ_{i<n} f i`, used to state the spec's full quartic objective. -/
def rsum (n : Nat) (f : Nat → ℚ) : ℚ := ((List.range n).map f).sum

/-- The full (unfactorized) Gromov-Wasserstein objective of spec section 4.3:
`Σ_{i j k l} L (C1 i k) (C2 j l) · G i j · G k l`. -/
def gwObjectiveFull (L : ℚ → ℚ → ℚ) (C1 C2 G : Mat) (m n : Nat) : ℚ :=
  rsum m (fun i => rsum n (fun j => rsum m (fun k => rsum n (fun l =>
    L (matGet C1 i k) (matGet C2 j l) * matGet G i j * matGet G k l))))

/-- The reversal permutation coupling on `n` points: the flipped identity scaled
by `1/n`. -/
def flipPerm (n : Nat) : Mat :=
  (List.range n).map (fun i => (List.range n).map (fun j =>
    if j = n - 1 - i then ((n : ℚ))⁻¹ else 0))

/-- The mirrored-structure hypothesis of the spec's symmetric edge case:
`C1 i k = C2 (n-1-i) (n-1-k)` on all indices below `n`. -/
def isRevOf (C1 C2 : Mat) (n : Nat) : Prop :=
  ∀ i k, i < n → k < n → matGet C1 i k = matGet C2 (n - 1 - i) (n - 1 - k)

/-- A record of a solver call's arguments, used to state that a call leaves its
arguments untouched and returns the same outputs when repeated. -/
structure CallArgs where
  M : Mat
  C1 : Mat
  C2 : Mat
  p : Vec
  q : Vec
  deriving DecidableEq

/-- A solver call through the argument record: the pair of the (unchanged)
arguments and the computed outputs of every solver on those arguments. -/
def solversCall (a : CallArgs) (K : LossKernel) (loss : ℚ → ℚ → ℚ)
    (alpha eps tol : ℚ) (fuel : Nat) (seed : Nat) :
    CallArgs × (Mat × Mat × (Mat × Bool) × (Mat × StochLog) × (Mat × StochLog)) :=
  (a, (gromov_wasserstein a.C1 a.C2 a.p a.q K fuel tol,
       fused_gromov_wasserstein a.M a.C1 a.C2 a.p a.q K alpha fuel tol,
       entropic_gromov_wasserstein a.C1 a.C2 a.p a.q K eps fuel fuel tol tol,
       pointwise_gromov_wasserstein a.C1 a.C2 a.p a.q loss fuel alpha seed,
       sampled_gromov_wasserstein a.C1 a.C2 a.p a.q loss fuel eps seed))

/-! ### Basic list and vector lemmas -/

theorem smulVec_sum (c : ℚ) (u : Vec) : (smulVec c u).sum = c * u.sum := by
  induction u with
  | nil => simp [smulVec]
  | cons x xs ih => simp [smulVec] at ih ⊢; rw [ih]; ring

theorem smulVec_length (c : ℚ) (u : Vec) : (smulVec c u).length = u.length := by
  simp [smulVec]

theorem vecAdd_length (u v : Vec) : (vecAdd u v).length = min u.length v.length := by
  simp [vecAdd]

theorem vecAdd_sum (u v : Vec) (h : u.length = v.length) :
    (vecAdd u v).sum = u.sum + v.sum := by
  induction u generalizing v with
  | nil => cases v with
    | nil => simp [vecAdd]
    | cons y ys => simp at h
  | cons x xs ih => cases v with
    | nil => simp at h
    | cons y ys =>
      simp [vecAdd] at *
      rw [ih ys h]
      ring

theorem map_add_map (c e : ℚ) (u : Vec) :
    vecAdd (u.map (fun x => c * x)) (u.map (fun x => e * x)) =
      u.map (fun x => (c + e) * x) := by
  induction u with
  | nil => simp [vecAdd]
  | cons x xs ih => simp [vecAdd] at ih ⊢; constructor
                    · ring
                    · exact ih

theorem map_one_mul (u : Vec) : u.map (fun x => (1 : ℚ) * x) = u := by
  simp

theorem vecAdd_replicate_zero (v : Vec) (n : Nat) (h : v.length = n) :
    vecAdd (List.replicate n 0) v = v := by
  induction v generalizing n with
  | nil => subst h; simp [vecAdd]
  | cons x xs ih =>
    subst h
    simp [List.replicate, vecAdd] at ih ⊢
    exact ih

theorem vecAdd_replicate_zero_right (v : Vec) (n : Nat) (h : v.length = n) :
    vecAdd v (List.replicate n 0) = v := by
  induction v generalizing n with
  | nil => subst h; simp [vecAdd]
  | cons x xs ih =>
    subst h
    simp [List.replicate, vecAdd] at ih ⊢
    exact ih

theorem sum_zero_of_nonneg (l : List ℚ) (h : ∀ x ∈ l, 0 ≤ x) (hs : l.sum = 0) :
    ∀ x ∈ l, x = 0 := by
  induction l with
  | nil => simp
  | cons x xs ih =>
    have hx : 0 ≤ x := h x (by simp)
    have hxs : ∀ y ∈ xs, 0 ≤ y := fun y hy => h y (by simp [hy])
    have hsum : 0 ≤ xs.sum := List.sum_nonneg hxs
    simp at hs
    have hx0 : x = 0 := by linarith
    have hxs0 : xs.sum = 0 := by linarith
    intro y hy
    rcases List.mem_cons.mp hy with h1 | h2
    · rw [h1, hx0]
    · exact ih hxs hxs0 y h2

theorem eq_replicate_zero_of_nonneg (l : List ℚ) (h : ∀ x ∈ l, 0 ≤ x)
    (hs : l.sum = 0) : l = List.replicate l.length 0 := by
  have := sum_zero_of_nonneg l h hs
  induction l with
  | nil => simp
  | cons x xs ih =>
    have hx : x = 0 := this x (by simp)
    have hxs : ∀ y ∈ xs, 0 ≤ y := fun y hy => h y (by simp [hy])
    have hsum0 : xs.sum = 0 := by
      have hx' : 0 ≤ x := h x (by simp)
      simp at hs
      have : 0 ≤ xs.sum := List.sum_nonneg hxs
      linarith
    simp [List.replicate, hx]
    exact ih hxs hsum0 (sum_zero_of_nonneg xs hxs hsum0)

theorem exists_pos_of_sum_one (l : List ℚ) (h : ∀ x ∈ l, 0 ≤ x) (hs : l.sum = 1) :
    ∃ x ∈ l, 0 < x := by
  by_contra hc
  push_neg at hc
  have : ∀ x ∈ l, x = 0 := by
    intro x hx
    exact le_antisymm (hc x hx) (h x hx)
  have : l.sum = 0 := List.sum_eq_zero this
  rw [hs] at this
  norm_num at this

theorem ne_nil_of_sum_one (l : List ℚ) (hs : l.sum = 1) : l ≠ [] := by
  intro h
  rw [h] at hs
  simp at hs

/-! ### Row and column sums of the basic constructions -/

theorem rowSums_length (A : Mat) : (rowSums A).length = A.length := by
  simp [rowSums]

theorem colSums_cons (r : Vec) (M : Mat) (h : M ≠ []) :
    colSums (r :: M) = vecAdd r (colSums M) := by
  cases M with
  | nil => exact absurd rfl h
  | cons s rest => rfl

theorem colSums_singleton (r : Vec) : colSums [r] = r := rfl

theorem rowSums_smulMat (c : ℚ) (A : Mat) :
    rowSums (smulMat c A) = (rowSums A).map (fun x => c * x) := by
  simp [rowSums, smulMat]
  intro r hr
  exact smulVec_sum c r

theorem rowSums_matAdd (A B : Mat)
    (h : List.Forall₂ (fun r s : List ℚ => r.length = s.length) A B) :
    rowSums (matAdd A B) = vecAdd (rowSums A) (rowSums B) := by
  induction h with
  | nil => simp [matAdd, rowSums, vecAdd]
  | cons hrs _ ih =>
    simp [matAdd, rowSums, vecAdd] at ih ⊢
    constructor
    · exact vecAdd_sum _ _ hrs
    · exact ih

theorem shape_forall2 (A B : Mat) (m n n' : Nat) (hA : isShape A m n)
    (hB : isShape B m n') (hnn : n = n') :
    List.Forall₂ (fun r s : List ℚ => r.length = s.length) A B := by
  subst hnn
  obtain ⟨hAl, hAr⟩ := hA
  obtain ⟨hBl, hBr⟩ := hB
  induction A generalizing B m with
  | nil =>
    cases B with
    | nil => exact List.Forall₂.nil
    | cons s bs => rw [← hAl] at hBl; simp at hBl
  | cons r as ih =>
    cases B with
    | nil => rw [← hAl] at hBl; simp at hBl
    | cons s bs =>
      refine List.Forall₂.cons ?_ ?_
      · rw [hAr r (by simp), hBr s (by simp)]
      · exact ih bs as.length rfl (fun t ht => hAr t (by simp [ht]))
          (by simp at hAl hBl; omega) (fun t ht => hBr t (by simp [ht]))

theorem smulVec_vecAdd (c : ℚ) (u w : Vec) :
    vecAdd (smulVec c u) (smulVec c w) = smulVec c (vecAdd u w) := by
  induction u generalizing w with
  | nil => simp [vecAdd, smulVec]
  | cons x xs ih =>
    cases w with
    | nil => simp [vecAdd, smulVec]
    | cons y ys =>
      simp [vecAdd, smulVec] at ih ⊢
      constructor
      · ring
      · exact ih ys

theorem vecAdd_swap (a b c d : Vec) :
    vecAdd (vecAdd a b) (vecAdd c d) = vecAdd (vecAdd a c) (vecAdd b d) := by
  apply List.ext_getElem
  · simp [vecAdd]
    omega
  · intro i h1 h2
    simp [vecAdd, List.getElem_zipWith]
    ring

theorem colSums_smulMat (c : ℚ) (A : Mat) :
    colSums (smulMat c A) = smulVec c (colSums A) := by
  induction A with
  | nil => simp [smulMat, colSums, smulVec]
  | cons r rest ih =>
    cases rest with
    | nil => simp [smulMat, colSums]
    | cons s rest2 =>
      have hne : smulMat c (s :: rest2) ≠ [] := by simp [smulMat]
      have hstep : smulMat c (r :: s :: rest2) = smulVec c r :: smulMat c (s :: rest2) := rfl
      rw [hstep, colSums_cons _ _ hne, ih, colSums_cons r (s :: rest2) (by simp),
        smulVec_vecAdd]

theorem colSums_matAdd (A B : Mat)
    (h : List.Forall₂ (fun r s : List ℚ => r.length = s.length) A B) :
    colSums (matAdd A B) = vecAdd (colSums A) (colSums B) := by
  induction h with
  | nil => simp [matAdd, colSums, vecAdd]
  | @cons r s as bs hrs htail ih =>
    cases htail with
    | nil => simp [matAdd, colSums]
    | @cons r2 s2 as2 bs2 h2 h3 =>
      have hne1 : matAdd (r2 :: as2) (s2 :: bs2) ≠ [] := by simp [matAdd]
      have hstep : matAdd (r :: r2 :: as2) (s :: s2 :: bs2) =
          vecAdd r s :: matAdd (r2 :: as2) (s2 :: bs2) := rfl
      rw [hstep, colSums_cons _ _ hne1, ih, colSums_cons r (r2 :: as2) (by simp),
        colSums_cons s (s2 :: bs2) (by simp)]
      exact vecAdd_swap r s (colSums (r2 :: as2)) (colSums (s2 :: bs2))

theorem colSums_length (A : Mat) (n : Nat) (hA : A ≠ [])
    (hr : ∀ r ∈ A, r.length = n) : (colSums A).length = n := by
  induction A with
  | nil => exact absurd rfl hA
  | cons r rest ih =>
    cases rest with
    | nil => simpa [colSums] using hr r (by simp)
    | cons s rest2 =>
      rw [colSums_cons r (s :: rest2) (by simp), vecAdd_length, hr r (by simp),
        ih (by simp) (fun t ht => hr t (List.mem_cons_of_mem _ ht))]
      simp

theorem exists_of_mem_zipWith {α β γ : Type} (f : α → β → γ) (A : List α)
    (B : List β) (r : γ) (h : r ∈ List.zipWith f A B) :
    ∃ a b, a ∈ A ∧ b ∈ B ∧ r = f a b := by
  induction A generalizing B with
  | nil => simp at h
  | cons x xs ih =>
    cases B with
    | nil => simp at h
    | cons y ys =>
      rcases List.mem_cons.mp h with h1 | h2
      · exact ⟨x, y, by simp, by simp, h1⟩
      · obtain ⟨a, b, ha, hb, rfl⟩ := ih ys h2
        exact ⟨a, b, by simp [ha], by simp [hb], rfl⟩

/-! ### Shape lemmas -/

theorem isShape_smulMat (c : ℚ) (A : Mat) (m n : Nat) (h : isShape A m n) :
    isShape (smulMat c A) m n := by
  obtain ⟨hl, hr⟩ := h
  constructor
  · simp [smulMat, hl]
  · intro r hrm
    simp [smulMat] at hrm
    obtain ⟨t, ht, rfl⟩ := hrm
    simp [smulVec, hr t ht]

theorem isShape_matAdd (A B : Mat) (m n : Nat) (hA : isShape A m n)
    (hB : isShape B m n) : isShape (matAdd A B) m n := by
  obtain ⟨hAl, hAr⟩ := hA
  obtain ⟨hBl, hBr⟩ := hB
  constructor
  · simp [matAdd, hAl, hBl]
  · intro r hrm
    obtain ⟨a, b, ha, hb, rfl⟩ := exists_of_mem_zipWith vecAdd A B r hrm
    rw [vecAdd_length, hAr a ha, hBr b hb]
    simp

theorem isShape_matSub (A B : Mat) (m n : Nat) (hA : isShape A m n)
    (hB : isShape B m n) : isShape (matSub A B) m n := by
  obtain ⟨hAl, hAr⟩ := hA
  obtain ⟨hBl, hBr⟩ := hB
  constructor
  · simp [matSub, hAl, hBl]
  · intro r hrm
    obtain ⟨a, b, ha, hb, rfl⟩ := exists_of_mem_zipWith _ A B r hrm
    rw [List.length_zipWith, hAr a ha, hBr b hb]
    simp

theorem isShape_outer (p q : Vec) : isShape (outerProd p q) p.length q.length := by
  constructor
  · simp [outerProd]
  · intro r hrm
    simp [outerProd] at hrm
    obtain ⟨a, _, rfl⟩ := hrm
    simp

theorem isShape_zeroMat (m n : Nat) : isShape (zeroMat m n) m n := by
  constructor
  · simp [zeroMat]
  · intro r hrm
    simp [zeroMat] at hrm
    simp [hrm]

theorem isShape_combStep (γ : ℚ) (G E : Mat) (m n : Nat) (hG : isShape G m n)
    (hE : isShape E m n) : isShape (combStep γ G E) m n :=
  isShape_matAdd _ _ m n (isShape_smulMat _ _ m n hG) (isShape_smulMat _ _ m n hE)

/-! ### Marginals of the independent coupling and of convex combinations -/

theorem rowSums_outer (p q : Vec) (hq : q.sum = 1) : rowSums (outerProd p q) = p := by
  have h1 : rowSums (outerProd p q) = p.map (fun a => a * q.sum) := by
    unfold rowSums outerProd
    rw [List.map_map]
    apply List.map_congr_left
    intro a _
    have := smulVec_sum a q
    simp only [smulVec] at this
    simpa [Function.comp, mul_comm] using this
  rw [h1, hq]
  simp

theorem colSums_outer (p q : Vec) (hp : p ≠ []) :
    colSums (outerProd p q) = smulVec p.sum q := by
  induction p with
  | nil => exact absurd rfl hp
  | cons a rest ih =>
    cases rest with
    | nil => simp [outerProd, colSums, smulVec]
    | cons a2 rest2 =>
      have hne : outerProd (a2 :: rest2) q ≠ [] := by simp [outerProd]
      have hstep : outerProd (a :: a2 :: rest2) q =
          (q.map (fun b => a * b)) :: outerProd (a2 :: rest2) q := rfl
      rw [hstep, colSums_cons _ _ hne, ih (by simp)]
      have hmm := map_add_map a ((a2 :: rest2).sum) q
      calc vecAdd (q.map fun b => a * b) (smulVec (a2 :: rest2).sum q)
          = q.map (fun x => (a + (a2 :: rest2).sum) * x) := hmm
        _ = smulVec ((a :: a2 :: rest2).sum) q := by
            simp [smulVec, List.sum_cons]

theorem colSums_outer_one (p q : Vec) (hp : p ≠ []) (hps : p.sum = 1) :
    colSums (outerProd p q) = q := by
  rw [colSums_outer p q hp, hps]
  simp [smulVec]

theorem combStep_rowSums (γ : ℚ) (G E : Mat) (p : Vec) (m n : Nat)
    (hG : isShape G m n) (hE : isShape E m n) (hrG : rowSums G = p)
    (hrE : rowSums E = p) : rowSums (combStep γ G E) = p := by
  unfold combStep
  rw [rowSums_matAdd _ _ (shape_forall2 _ _ m n n (isShape_smulMat _ _ m n hG)
    (isShape_smulMat _ _ m n hE) rfl)]
  rw [rowSums_smulMat, rowSums_smulMat, hrG, hrE, map_add_map]
  have : 1 - γ + γ = 1 := by ring
  rw [this, map_one_mul]

theorem combStep_colSums (γ : ℚ) (G E : Mat) (q : Vec) (m n : Nat)
    (hG : isShape G m n) (hE : isShape E m n) (hcG : colSums G = q)
    (hcE : colSums E = q) : colSums (combStep γ G E) = q := by
  unfold combStep
  rw [colSums_matAdd _ _ (shape_forall2 _ _ m n n (isShape_smulMat _ _ m n hG)
    (isShape_smulMat _ _ m n hE) rfl)]
  rw [colSums_smulMat, colSums_smulMat, hcG, hcE]
  simp only [smulVec]
  rw [map_add_map]
  have : 1 - γ + γ = 1 := by ring
  rw [this, map_one_mul]

/-! ### Feasibility of the north-west-corner coupling -/

theorem vecAdd_cons (x y : ℚ) (u v : Vec) :
    vecAdd (x :: u) (y :: v) = (x + y) :: vecAdd u v := rfl

theorem colSums_map_cons_zero (M : Mat) (h : M ≠ []) :
    colSums (M.map (fun row => 0 :: row)) = 0 :: colSums M := by
  induction M with
  | nil => exact absurd rfl h
  | cons t rest ih =>
    cases rest with
    | nil => simp [colSums]
    | cons u rest2 =>
      have hne : (u :: rest2).map (fun row => 0 :: row) ≠ [] := by simp
      have hstep : (t :: u :: rest2).map (fun row => 0 :: row) =
          (0 :: t) :: (u :: rest2).map (fun row => 0 :: row) := rfl
      rw [hstep, colSums_cons _ _ hne, ih (by simp), vecAdd_cons,
        colSums_cons t (u :: rest2) (by simp)]
      norm_num

theorem nwRec_shape : ∀ (fuel : Nat) (a b : Vec), a.length + b.length ≤ fuel →
    isShape (nwRec fuel a b) a.length b.length := by
  intro fuel
  induction fuel with
  | zero =>
    intro a b h
    have ha : a = [] := List.length_eq_zero.mp (by omega)
    have hb : b = [] := List.length_eq_zero.mp (by omega)
    subst ha; subst hb
    exact ⟨rfl, by simp [nwRec]⟩
  | succ fuel ih =>
    intro a b h
    cases a with
    | nil => exact ⟨rfl, by simp [nwRec]⟩
    | cons x as =>
      cases b with
      | nil =>
        have h2 := ih as [] (by simp at h ⊢; omega)
        refine ⟨?_, ?_⟩
        · simp [nwRec, h2.1]
        · intro r hr
          simp [nwRec] at hr
          rcases hr with h1 | h1
          · simp [h1]
          · exact h2.2 r h1
      | cons y bs =>
        by_cases hxy : x ≤ y
        · have h2 := ih as ((y - x) :: bs) (by simp at h ⊢; omega)
          refine ⟨?_, ?_⟩
          · simp [nwRec, hxy, h2.1]
          · intro r hr
            simp only [nwRec, if_pos hxy] at hr
            rcases List.mem_cons.mp hr with h1 | h1
            · simp [h1]
            · have := h2.2 r h1
              simp at this ⊢
              exact this
        · have h2 := ih ((x - y) :: as) bs (by simp at h ⊢; omega)
          have hlen : (nwRec fuel ((x - y) :: as) bs).length = as.length + 1 := by
            simpa using h2.1
          cases hM : nwRec fuel ((x - y) :: as) bs with
          | nil => rw [hM] at hlen; simp at hlen
          | cons r rest =>
            rw [hM] at hlen h2
            refine ⟨?_, ?_⟩
            · simp only [nwRec, if_neg hxy, hM]
              simp at hlen ⊢
              omega
            · intro t ht
              simp only [nwRec, if_neg hxy, hM] at ht
              rcases List.mem_cons.mp ht with h1 | h1
              · have hr := h2.2 r (by simp)
                simp [h1]
                simp at hr
                omega
              · simp at h1
                obtain ⟨row, hrow, rfl⟩ := h1
                have := h2.2 row (by simp [hrow])
                simp at this ⊢
                omega

theorem nwRec_rowSums : ∀ (fuel : Nat) (a b : Vec), a.length + b.length ≤ fuel →
    (∀ x ∈ a, 0 ≤ x) → (∀ x ∈ b, 0 ≤ x) → a.sum = b.sum →
    rowSums (nwRec fuel a b) = a := by
  intro fuel
  induction fuel with
  | zero =>
    intro a b h _ _ _
    have ha : a = [] := List.length_eq_zero.mp (by omega)
    subst ha
    simp [nwRec, rowSums]
  | succ fuel ih =>
    intro a b h ha0 hb0 hsum
    cases a with
    | nil => simp [nwRec, rowSums]
    | cons x as =>
      cases b with
      | nil =>
        simp at hsum
        have hx : x = 0 := by
          have h1 : 0 ≤ x := ha0 x (by simp)
          have h2 : 0 ≤ as.sum := List.sum_nonneg (fun t ht => ha0 t (by simp [ht]))
          linarith
        have hrec := ih as [] (by simp at h ⊢; omega)
          (fun t ht => ha0 t (by simp [ht])) (by simp) (by simp; linarith [hsum])
        simp [nwRec, rowSums] at hrec ⊢
        exact ⟨hx.symm, hrec⟩
      | cons y bs =>
        simp at hsum
        by_cases hxy : x ≤ y
        · have hrec := ih as ((y - x) :: bs) (by simp at h ⊢; omega)
            (fun t ht => ha0 t (by simp [ht]))
            (by
              intro t ht
              rcases List.mem_cons.mp ht with h1 | h1
              · subst h1; linarith
              · exact hb0 t (by simp [h1]))
            (by simp; linarith)
          simp only [nwRec, if_pos hxy]
          simp [rowSums] at hrec ⊢
          exact hrec
        · have hsh := nwRec_shape fuel ((x - y) :: as) bs (by simp at h ⊢; omega)
          have hrec := ih ((x - y) :: as) bs (by simp at h ⊢; omega)
            (by
              intro t ht
              rcases List.mem_cons.mp ht with h1 | h1
              · subst h1; linarith
              · exact ha0 t (by simp [h1]))
            (fun t ht => hb0 t (by simp [ht]))
            (by simp; linarith)
          cases hM : nwRec fuel ((x - y) :: as) bs with
          | nil =>
            rw [hM] at hsh
            simp [isShape] at hsh
          | cons r rest =>
            rw [hM] at hrec
            simp [rowSums] at hrec
            obtain ⟨hr1, hr2⟩ := hrec
            simp only [nwRec, if_neg hxy, hM]
            simp [rowSums]
            refine ⟨by rw [hr1]; ring, ?_⟩
            rw [← hr2]
            apply List.map_congr_left
            intro t _
            simp

theorem nwRec_nil_left : ∀ (fuel : Nat) (b : Vec), nwRec fuel [] b = [] := by
  intro fuel b
  cases fuel with
  | zero => rfl
  | succ f => rfl

theorem nwRec_colSums : ∀ (fuel : Nat) (a b : Vec), a.length + b.length ≤ fuel →
    (∀ x ∈ a, 0 ≤ x) → (∀ x ∈ b, 0 ≤ x) → a.sum = b.sum → (a = [] → b = []) →
    colSums (nwRec fuel a b) = b := by
  intro fuel
  induction fuel with
  | zero =>
    intro a b h _ _ _ hab
    have ha : a = [] := List.length_eq_zero.mp (by omega)
    have hb : b = [] := hab ha
    subst ha; subst hb
    simp [nwRec, colSums]
  | succ fuel ih =>
    intro a b h ha0 hb0 hsum hab
    cases a with
    | nil =>
      rw [hab rfl]
      simp [nwRec, colSums]
    | cons x as =>
      cases b with
      | nil =>
        cases as with
        | nil => simp [nwRec, colSums, nwRec_nil_left]
        | cons x2 as2 =>
          have hsh := nwRec_shape fuel (x2 :: as2) [] (by simp at h ⊢; omega)
          have hne : nwRec fuel (x2 :: as2) [] ≠ [] := by
            intro hc
            rw [hc] at hsh
            simp [isShape] at hsh
          have hstep : nwRec (fuel + 1) (x :: x2 :: as2) [] =
              [] :: nwRec fuel (x2 :: as2) [] := rfl
          rw [hstep, colSums_cons _ _ hne]
          simp [vecAdd]
      | cons y bs =>
        simp at hsum
        by_cases hxy : x ≤ y
        · cases as with
          | nil =>
            simp at hsum
            have hbs0 : 0 ≤ bs.sum :=
              List.sum_nonneg (fun t ht => hb0 t (by simp [ht]))
            have hxeq : x = y := by linarith
            have hbs : bs.sum = 0 := by linarith
            have hrep : bs = List.replicate bs.length 0 :=
              eq_replicate_zero_of_nonneg bs (fun t ht => hb0 t (by simp [ht])) hbs
            have hstep : nwRec (fuel + 1) [x] (y :: bs) =
                [x :: List.replicate bs.length 0] := by
              simp [nwRec, hxy, nwRec_nil_left]
            rw [hstep, colSums_singleton, hxeq, ← hrep]
          | cons x2 as2 =>
            have hsh := nwRec_shape fuel (x2 :: as2) ((y - x) :: bs)
              (by simp at h ⊢; omega)
            have hne : nwRec fuel (x2 :: as2) ((y - x) :: bs) ≠ [] := by
              intro hc
              rw [hc] at hsh
              simp [isShape] at hsh
            have hrec := ih (x2 :: as2) ((y - x) :: bs) (by simp at h ⊢; omega)
              (fun t ht => ha0 t (by simp [ht]))
              (by
                intro t ht
                rcases List.mem_cons.mp ht with h1 | h1
                · subst h1; linarith
                · exact hb0 t (by simp [h1]))
              (by simp at hsum ⊢; linarith)
              (by simp)
            have hstep : nwRec (fuel + 1) (x :: x2 :: as2) (y :: bs) =
                (x :: List.replicate bs.length 0) :: nwRec fuel (x2 :: as2) ((y - x) :: bs) := by
              simp [nwRec, hxy]
            rw [hstep, colSums_cons _ _ hne, hrec, vecAdd_cons,
              vecAdd_replicate_zero bs bs.length rfl]
            norm_num
        · have hsh := nwRec_shape fuel ((x - y) :: as) bs (by simp at h ⊢; omega)
          have hrec := ih ((x - y) :: as) bs (by simp at h ⊢; omega)
            (by
              intro t ht
              rcases List.mem_cons.mp ht with h1 | h1
              · subst h1; linarith
              · exact ha0 t (by simp [h1]))
            (fun t ht => hb0 t (by simp [ht]))
            (by simp; linarith)
            (by simp)
          cases hM : nwRec fuel ((x - y) :: as) bs with
          | nil =>
            rw [hM] at hsh
            simp [isShape] at hsh
          | cons r rest =>
            rw [hM] at hrec
            cases rest with
            | nil =>
              have hstep : nwRec (fuel + 1) (x :: as) (y :: bs) = [y :: r] := by
                simp [nwRec, hxy, hM]
              rw [colSums_singleton] at hrec
              rw [hstep, colSums_singleton, hrec]
            | cons r2 rest2 =>
              have hne2 : (r2 :: rest2).map (fun row => 0 :: row) ≠ [] := by simp
              have hstep : nwRec (fuel + 1) (x :: as) (y :: bs) =
                  (y :: r) :: (r2 :: rest2).map (fun row => 0 :: row) := by
                simp [nwRec, hxy, hM]
              rw [hstep, colSums_cons _ _ hne2,
                colSums_map_cons_zero (r2 :: rest2) (by simp), vecAdd_cons]
              rw [colSums_cons r (r2 :: rest2) (by simp)] at hrec
              rw [hrec]
              norm_num

/-! ### Feasibility of `nwcorner`, `emd`, and the conditional-gradient iterates -/

theorem nwcorner_shape (a b : Vec) : isShape (nwcorner a b) a.length b.length :=
  nwRec_shape (a.length + b.length) a b le_rfl

theorem nwcorner_rowSums (a b : Vec) (ha0 : ∀ x ∈ a, 0 ≤ x) (hb0 : ∀ x ∈ b, 0 ≤ x)
    (hsum : a.sum = b.sum) : rowSums (nwcorner a b) = a :=
  nwRec_rowSums (a.length + b.length) a b le_rfl ha0 hb0 hsum

theorem nwcorner_colSums (a b : Vec) (ha0 : ∀ x ∈ a, 0 ≤ x) (hb0 : ∀ x ∈ b, 0 ≤ x)
    (hsum : a.sum = b.sum) (hab : a = [] → b = []) : colSums (nwcorner a b) = b :=
  nwRec_colSums (a.length + b.length) a b le_rfl ha0 hb0 hsum hab

theorem emd_feasible (a b : Vec) (M : Mat) (h : validMarginals a b) :
    rowSums (emd a b M) = a ∧ colSums (emd a b M) = b ∧
      isShape (emd a b M) a.length b.length := by
  obtain ⟨ha0, hb0, has, hbs⟩ := h
  have hane : a ≠ [] := ne_nil_of_sum_one a has
  have hsum : a.sum = b.sum := by rw [has, hbs]
  unfold emd
  by_cases hc : frobDot M (outerProd a b) < frobDot M (nwcorner a b)
  · simp only [if_pos hc]
    exact ⟨rowSums_outer a b hbs, colSums_outer_one a b hane has, isShape_outer a b⟩
  · simp only [if_neg hc]
    exact ⟨nwcorner_rowSums a b ha0 hb0 hsum,
      nwcorner_colSums a b ha0 hb0 hsum (fun hx => absurd hx hane),
      nwcorner_shape a b⟩

theorem emd_cost_le_outer (a b : Vec) (M : Mat) :
    frobDot M (emd a b M) ≤ frobDot M (outerProd a b) := by
  unfold emd
  by_cases hc : frobDot M (outerProd a b) < frobDot M (nwcorner a b)
  · simp only [if_pos hc]
    exact le_refl _
  · simp only [if_neg hc]
    linarith [not_lt.mp hc]

theorem cgLoop_feasible (p q : Vec) (M : Mat) (K : LossKernel) (C1 C2 : Mat)
    (alpha tol : ℚ) (hpq : validMarginals p q) :
    ∀ (fuel done : Nat) (G : Mat) (fG : ℚ), isShape G p.length q.length →
      rowSums G = p → colSums G = q →
      isShape (cgLoop p q M K C1 C2 alpha tol fuel done G fG).T p.length q.length ∧
      rowSums (cgLoop p q M K C1 C2 alpha tol fuel done G fG).T = p ∧
      colSums (cgLoop p q M K C1 C2 alpha tol fuel done G fG).T = q := by
  intro fuel
  induction fuel with
  | zero =>
    intro done G fG hsh hrow hcol
    exact ⟨hsh, hrow, hcol⟩
  | succ fuel ih =>
    intro done G fG hsh hrow hcol
    have hE := emd_feasible p q (fgwGrad alpha M K C1 C2 p q G) hpq
    simp only [cgLoop]
    split
    · exact ⟨isShape_combStep _ G _ p.length q.length hsh hE.2.2,
        combStep_rowSums _ G _ p p.length q.length hsh hE.2.2 hrow hE.1,
        combStep_colSums _ G _ q p.length q.length hsh hE.2.2 hcol hE.2.1⟩
    · exact ih (done + 1) _ _
        (isShape_combStep _ G _ p.length q.length hsh hE.2.2)
        (combStep_rowSums _ G _ p p.length q.length hsh hE.2.2 hrow hE.1)
        (combStep_colSums _ G _ q p.length q.length hsh hE.2.2 hcol hE.2.1)

theorem gromov_wasserstein_feasible (C1 C2 : Mat) (p q : Vec) (K : LossKernel)
    (fuel : Nat) (tol : ℚ) (hpq : validMarginals p q) :
    rowSums (gromov_wasserstein C1 C2 p q K fuel tol) = p ∧
    colSums (gromov_wasserstein C1 C2 p q K fuel tol) = q ∧
    isShape (gromov_wasserstein C1 C2 p q K fuel tol) p.length q.length := by
  obtain ⟨hp0, hq0, hps, hqs⟩ := hpq
  have h := cgLoop_feasible p q (zeroMat p.length q.length) K C1 C2 1 tol
    ⟨hp0, hq0, hps, hqs⟩ fuel 0 (outerProd p q)
    (fgwObj 1 (zeroMat p.length q.length) K C1 C2 p q (outerProd p q))
    (isShape_outer p q) (rowSums_outer p q hqs)
    (colSums_outer_one p q (ne_nil_of_sum_one p hps) hps)
  exact ⟨h.2.1, h.2.2, h.1⟩

theorem fused_gromov_wasserstein_feasible (M C1 C2 : Mat) (p q : Vec)
    (K : LossKernel) (alpha : ℚ) (fuel : Nat) (tol : ℚ)
    (hpq : validMarginals p q) :
    rowSums (fused_gromov_wasserstein M C1 C2 p q K alpha fuel tol) = p ∧
    colSums (fused_gromov_wasserstein M C1 C2 p q K alpha fuel tol) = q ∧
    isShape (fused_gromov_wasserstein M C1 C2 p q K alpha fuel tol) p.length q.length := by
  obtain ⟨hp0, hq0, hps, hqs⟩ := hpq
  have h := cgLoop_feasible p q M K C1 C2 alpha tol ⟨hp0, hq0, hps, hqs⟩ fuel 0
    (outerProd p q) (fgwObj alpha M K C1 C2 p q (outerProd p q))
    (isShape_outer p q) (rowSums_outer p q hqs)
    (colSums_outer_one p q (ne_nil_of_sum_one p hps) hps)
  exact ⟨h.2.1, h.2.2, h.1⟩

/-! ### Feasibility of the stochastic solvers' couplings -/

theorem pwStep_feasible (C1 C2 : Mat) (p q : Vec) (loss : ℚ → ℚ → ℚ) (alpha : ℚ)
    (st : StochState) (hpq : validMarginals p q)
    (h : isShape st.G p.length q.length ∧ rowSums st.G = p ∧ colSums st.G = q) :
    isShape (pwStep C1 C2 p q loss alpha st).G p.length q.length ∧
    rowSums (pwStep C1 C2 p q loss alpha st).G = p ∧
    colSums (pwStep C1 C2 p q loss alpha st).G = q := by
  obtain ⟨hp0, hq0, hps, hqs⟩ := hpq
  obtain ⟨hsh, hrow, hcol⟩ := h
  have hsum : p.sum = q.sum := by rw [hps, hqs]
  have hpne : p ≠ [] := ne_nil_of_sum_one p hps
  have hdir : ∀ d : Mat, (d = nwcorner p q ∨ d = outerProd p q) →
      isShape d p.length q.length ∧ rowSums d = p ∧ colSums d = q := by
    intro d hd
    rcases hd with rfl | rfl
    · exact ⟨nwcorner_shape p q, nwcorner_rowSums p q hp0 hq0 hsum,
        nwcorner_colSums p q hp0 hq0 hsum (fun hx => absurd hx hpne)⟩
    · exact ⟨isShape_outer p q, rowSums_outer p q hqs,
        colSums_outer_one p q hpne hps⟩
  unfold pwStep
  by_cases hc : (lcg st.rng % p.length + lcg (lcg st.rng) % q.length) % 2 = 0
  · have hd := hdir (nwcorner p q) (Or.inl rfl)
    simp only [hc, if_pos]
    exact ⟨isShape_combStep _ _ _ _ _ hsh hd.1,
      combStep_rowSums _ _ _ p _ _ hsh hd.1 hrow hd.2.1,
      combStep_colSums _ _ _ q _ _ hsh hd.1 hcol hd.2.2⟩
  · have hd := hdir (outerProd p q) (Or.inr rfl)
    simp only [if_neg hc]
    exact ⟨isShape_combStep _ _ _ _ _ hsh hd.1,
      combStep_rowSums _ _ _ p _ _ hsh hd.1 hrow hd.2.1,
      combStep_colSums _ _ _ q _ _ hsh hd.1 hcol hd.2.2⟩

theorem pwLoop_feasible (C1 C2 : Mat) (p q : Vec) (loss : ℚ → ℚ → ℚ) (alpha : ℚ)
    (hpq : validMarginals p q) : ∀ (fuel : Nat) (st : StochState),
    isShape st.G p.length q.length → rowSums st.G = p → colSums st.G = q →
    isShape (pwLoop C1 C2 p q loss alpha fuel st).G p.length q.length ∧
    rowSums (pwLoop C1 C2 p q loss alpha fuel st).G = p ∧
    colSums (pwLoop C1 C2 p q loss alpha fuel st).G = q := by
  intro fuel
  induction fuel with
  | zero => intro st h1 h2 h3; exact ⟨h1, h2, h3⟩
  | succ fuel ih =>
    intro st h1 h2 h3
    have h := pwStep_feasible C1 C2 p q loss alpha st hpq ⟨h1, h2, h3⟩
    exact ih _ h.1 h.2.1 h.2.2

theorem pointwise_feasible (C1 C2 : Mat) (p q : Vec) (loss : ℚ → ℚ → ℚ)
    (maxIter : Nat) (alpha : ℚ) (seed : Nat) (hpq : validMarginals p q) :
    rowSums (pointwise_gromov_wasserstein C1 C2 p q loss maxIter alpha seed).1 = p ∧
    colSums (pointwise_gromov_wasserstein C1 C2 p q loss maxIter alpha seed).1 = q := by
  obtain ⟨hp0, hq0, hps, hqs⟩ := hpq
  have h := pwLoop_feasible C1 C2 p q loss alpha ⟨hp0, hq0, hps, hqs⟩ maxIter
    ⟨outerProd p q, seed, []⟩ (isShape_outer p q) (rowSums_outer p q hqs)
    (colSums_outer_one p q (ne_nil_of_sum_one p hps) hps)
  exact ⟨h.2.1, h.2.2⟩

theorem sampStep_feasible (C1 C2 : Mat) (p q : Vec) (loss : ℚ → ℚ → ℚ) (eps : ℚ)
    (st : StochState) (hpq : validMarginals p q)
    (h : isShape st.G p.length q.length ∧ rowSums st.G = p ∧ colSums st.G = q) :
    isShape (sampStep C1 C2 p q loss eps st).G p.length q.length ∧
    rowSums (sampStep C1 C2 p q loss eps st).G = p ∧
    colSums (sampStep C1 C2 p q loss eps st).G = q := by
  obtain ⟨hp0, hq0, hps, hqs⟩ := hpq
  obtain ⟨hsh, hrow, hcol⟩ := h
  have hsum : p.sum = q.sum := by rw [hps, hqs]
  have hpne : p ≠ [] := ne_nil_of_sum_one p hps
  have hnw : isShape (nwcorner p q) p.length q.length ∧ rowSums (nwcorner p q) = p ∧
      colSums (nwcorner p q) = q :=
    ⟨nwcorner_shape p q, nwcorner_rowSums p q hp0 hq0 hsum,
      nwcorner_colSums p q hp0 hq0 hsum (fun hx => absurd hx hpne)⟩
  have ho : isShape (outerProd p q) p.length q.length ∧ rowSums (outerProd p q) = p ∧
      colSums (outerProd p q) = q :=
    ⟨isShape_outer p q, rowSums_outer p q hqs, colSums_outer_one p q hpne hps⟩
  unfold sampStep
  by_cases hc : (lcg (lcg st.rng) + lcg (lcg (lcg (lcg st.rng)))) % 2 = 0
  · simp only [hc, if_pos]
    exact ⟨isShape_combStep _ _ _ _ _ hsh hnw.1,
      combStep_rowSums _ _ _ p _ _ hsh hnw.1 hrow hnw.2.1,
      combStep_colSums _ _ _ q _ _ hsh hnw.1 hcol hnw.2.2⟩
  · simp only [if_neg hc]
    exact ⟨isShape_combStep _ _ _ _ _ hsh ho.1,
      combStep_rowSums _ _ _ p _ _ hsh ho.1 hrow ho.2.1,
      combStep_colSums _ _ _ q _ _ hsh ho.1 hcol ho.2.2⟩

theorem sampLoop_feasible (C1 C2 : Mat) (p q : Vec) (loss : ℚ → ℚ → ℚ) (eps : ℚ)
    (hpq : validMarginals p q) : ∀ (fuel : Nat) (st : StochState),
    isShape st.G p.length q.length → rowSums st.G = p → colSums st.G = q →
    isShape (sampLoop C1 C2 p q loss eps fuel st).G p.length q.length ∧
    rowSums (sampLoop C1 C2 p q loss eps fuel st).G = p ∧
    colSums (sampLoop C1 C2 p q loss eps fuel st).G = q := by
  intro fuel
  induction fuel with
  | zero => intro st h1 h2 h3; exact ⟨h1, h2, h3⟩
  | succ fuel ih =>
    intro st h1 h2 h3
    have h := sampStep_feasible C1 C2 p q loss eps st hpq ⟨h1, h2, h3⟩
    exact ih _ h.1 h.2.1 h.2.2

theorem sampled_feasible (C1 C2 : Mat) (p q : Vec) (loss : ℚ → ℚ → ℚ)
    (maxIter : Nat) (eps : ℚ) (seed : Nat) (hpq : validMarginals p q) :
    rowSums (sampled_gromov_wasserstein C1 C2 p q loss maxIter eps seed).1 = p ∧
    colSums (sampled_gromov_wasserstein C1 C2 p q loss maxIter eps seed).1 = q := by
  obtain ⟨hp0, hq0, hps, hqs⟩ := hpq
  have h := sampLoop_feasible C1 C2 p q loss eps ⟨hp0, hq0, hps, hqs⟩ maxIter
    ⟨outerProd p q, seed, []⟩ (isShape_outer p q) (rowSums_outer p q hqs)
    (colSums_outer_one p q (ne_nil_of_sum_one p hps) hps)
  exact ⟨h.2.1, h.2.2⟩

/-! ### Sinkhorn scaling: positivity, exact column marginals, row residual -/

theorem dotp_nonneg (r v : Vec) (hr : ∀ x ∈ r, 0 ≤ x) (hv : ∀ y ∈ v, 0 ≤ y) :
    0 ≤ dotp r v := by
  apply List.sum_nonneg
  intro t ht
  obtain ⟨x, y, hx, hy, rfl⟩ := exists_of_mem_zipWith _ r v t ht
  exact mul_nonneg (hr x hx) (hv y hy)

theorem dotp_pos (r v : Vec) (hr : ∀ x ∈ r, 0 < x) (hv : ∀ y ∈ v, 0 ≤ y)
    (hlen : r.length = v.length) (hex : ∃ y ∈ v, 0 < y) : 0 < dotp r v := by
  induction r generalizing v with
  | nil =>
    obtain ⟨y, hy, _⟩ := hex
    have : v = [] := List.length_eq_zero.mp hlen.symm
    subst this
    simp at hy
  | cons x xs ih =>
    cases v with
    | nil => simp at hlen
    | cons y ys =>
      simp [dotp] at *
      obtain ⟨hx, hxs⟩ := hr
      rcases hex with h1 | h1
      · have h2 : 0 ≤ dotp xs ys :=
          dotp_nonneg xs ys (fun t ht => le_of_lt (hxs t ht)) hv.2
        have h3 : 0 < x * y := mul_pos hx h1
        simp [dotp] at h2
        linarith
      · obtain ⟨y2, hy2, hy2p⟩ := h1
        have h2 : 0 < dotp xs ys := by
          have := ih ys hxs hv.2 hlen y2 hy2 hy2p
          simpa [dotp] using this
        have h3 : 0 ≤ x * y := mul_nonneg (le_of_lt hx) hv.1
        simp [dotp] at h2
        linarith

theorem matTranspose_length (r : Vec) (rest : Mat) :
    (matTranspose (r :: rest)).length = r.length := by
  simp [matTranspose]

theorem matTranspose_shape (A : Mat) (m n : Nat) (hA : isShape A m n) (hm : 0 < m) :
    isShape (matTranspose A) n m := by
  obtain ⟨hl, hr⟩ := hA
  cases A with
  | nil => simp at hl; omega
  | cons r rest =>
    constructor
    · rw [matTranspose_length, hr r (by simp)]
    · intro t ht
      simp [matTranspose] at ht
      obtain ⟨j, _, rfl⟩ := ht
      simpa using hl

theorem matTranspose_getD (A : Mat) (m n : Nat) (hA : isShape A m n) (hm : 0 < m)
    (j : Nat) (hj : j < n) :
    (matTranspose A).getD j [] = A.map (fun row => row.getD j 0) := by
  obtain ⟨hl, hr⟩ := hA
  cases A with
  | nil => simp at hl; omega
  | cons r rest =>
    have hrl : r.length = n := hr r (by simp)
    simp only [matTranspose]
    rw [List.getD_eq_getElem _ _ (by simp [hrl]; omega)]
    simp

theorem getD_mem_of_lt (l : List ℚ) (j : Nat) (h : j < l.length) :
    l.getD j 0 ∈ l := by
  rw [List.getD_eq_getElem l 0 h]
  exact List.getElem_mem h

theorem matTranspose_pos (A : Mat) (m n : Nat) (hA : isShape A m n) (hm : 0 < m)
    (hpos : ∀ r ∈ A, ∀ x ∈ r, 0 < x) :
    ∀ r ∈ matTranspose A, ∀ x ∈ r, 0 < x := by
  obtain ⟨hl, hr⟩ := hA
  cases A with
  | nil => simp at hl; omega
  | cons t rest =>
    intro r hrm x hx
    simp only [matTranspose] at hrm
    rw [List.mem_map] at hrm
    obtain ⟨j, hjmem, rfl⟩ := hrm
    rw [List.mem_range] at hjmem
    rw [List.mem_map] at hx
    obtain ⟨row, hrow, rfl⟩ := hx
    have hjn : j < row.length := by
      rw [hr row hrow, ← hr t (by simp)]
      exact hjmem
    exact hpos row hrow _ (getD_mem_of_lt row j hjn)

theorem scaleUpdate_ok (c w : Vec) (W : Mat) (hW : isShape W c.length w.length)
    (hWpos : ∀ r ∈ W, ∀ x ∈ r, 0 < x) (hc0 : ∀ x ∈ c, 0 ≤ x) (hcs : c.sum = 1)
    (hw0 : ∀ x ∈ w, 0 ≤ x) (hwex : ∃ x ∈ w, 0 < x) :
    (∀ x ∈ matVec W w, 0 < x) ∧ okScale c.length (vecDiv c (matVec W w)) := by
  have hpos : ∀ x ∈ matVec W w, 0 < x := by
    intro x hx
    rw [matVec, List.mem_map] at hx
    obtain ⟨r, hr, rfl⟩ := hx
    exact dotp_pos r w (hWpos r hr) hw0 (hW.2 r hr) hwex
  have hlenv : (vecDiv c (matVec W w)).length = c.length := by
    rw [vecDiv, List.length_zipWith, matVec, List.length_map, hW.1]
    simp
  refine ⟨hpos, hlenv, ?_, ?_⟩
  · intro x hx
    obtain ⟨ci, di, hci, hdi, rfl⟩ := exists_of_mem_zipWith _ c (matVec W w) x hx
    exact div_nonneg (hc0 ci hci) (le_of_lt (hpos di hdi))
  · obtain ⟨x0, hx0mem, hx0⟩ := exists_pos_of_sum_one c hc0 hcs
    obtain ⟨i, hilen, hval⟩ := List.mem_iff_getElem.mp hx0mem
    have hiv : i < (vecDiv c (matVec W w)).length := by omega
    refine ⟨(vecDiv c (matVec W w))[i], List.getElem_mem hiv, ?_⟩
    simp only [vecDiv, List.getElem_zipWith]
    apply div_pos
    · rw [hval]; exact hx0
    · exact hpos _ (List.getElem_mem _)

theorem sinkhornUV_spec (a b : Vec) (K : Mat) (hK : isShape K a.length b.length)
    (hKpos : ∀ r ∈ K, ∀ x ∈ r, 0 < x) (ha0 : ∀ x ∈ a, 0 ≤ x) (has : a.sum = 1)
    (hb0 : ∀ x ∈ b, 0 ≤ x) (hbs : b.sum = 1) :
    ∀ (fuel : Nat), 1 ≤ fuel → ∀ uv : Vec × Vec, (∀ x ∈ uv.2, 0 ≤ x) →
      (∃ x ∈ uv.2, 0 < x) → uv.2.length = b.length →
      (sinkhornUV a b K fuel uv).2 =
        vecDiv b (matVec (matTranspose K) (sinkhornUV a b K fuel uv).1) ∧
      (∀ x ∈ matVec (matTranspose K) (sinkhornUV a b K fuel uv).1, 0 < x) ∧
      okScale a.length (sinkhornUV a b K fuel uv).1 ∧
      okScale b.length (sinkhornUV a b K fuel uv).2 := by
  have hane : a ≠ [] := ne_nil_of_sum_one a has
  have hma : 0 < a.length := by
    cases a with
    | nil => exact absurd rfl hane
    | cons x xs => simp
  intro fuel
  induction fuel with
  | zero => intro h; omega
  | succ fuel ih =>
    intro _ uv hv0 hvex hvlen
    obtain ⟨u, v⟩ := uv
    have hKv : isShape K a.length v.length := by rw [hvlen]; exact hK
    have hu2 := scaleUpdate_ok a v K hKv hKpos ha0 has hv0 hvex
    have hKT : isShape (matTranspose K) b.length a.length :=
      matTranspose_shape K a.length b.length hK hma
    have hKTpos := matTranspose_pos K a.length b.length hK hma hKpos
    have hKTu : isShape (matTranspose K) b.length
        (vecDiv a (matVec K v)).length := by
      rw [hu2.2.1]; exact hKT
    have hv2 := scaleUpdate_ok b (vecDiv a (matVec K v)) (matTranspose K) hKTu
      hKTpos hb0 hbs hu2.2.2.1 hu2.2.2.2
    cases fuel with
    | zero =>
      have hstep : sinkhornUV a b K 1 (u, v) =
          (vecDiv a (matVec K v),
           vecDiv b (matVec (matTranspose K) (vecDiv a (matVec K v)))) := rfl
      rw [hstep]
      exact ⟨rfl, hv2.1, hu2.2, hv2.2⟩
    | succ f =>
      have hstep : sinkhornUV a b K (f + 1 + 1) (u, v) =
          sinkhornUV a b K (f + 1)
            (vecDiv a (matVec K v),
             vecDiv b (matVec (matTranspose K) (vecDiv a (matVec K v)))) := rfl
      rw [hstep]
      exact ih (by omega)
        (vecDiv a (matVec K v),
         vecDiv b (matVec (matTranspose K) (vecDiv a (matVec K v))))
        hv2.2.2.1 hv2.2.2.2 hv2.2.1

theorem colSums_getD (A : Mat) (n : Nat) (hA : A ≠ [])
    (hr : ∀ r ∈ A, r.length = n) (j : Nat) (hj : j < n) :
    (colSums A).getD j 0 = (A.map (fun r => r.getD j 0)).sum := by
  induction A with
  | nil => exact absurd rfl hA
  | cons r rest ih =>
    cases rest with
    | nil => simp [colSums]
    | cons s rest2 =>
      have hrn : r.length = n := hr r (by simp)
      have hcl : (colSums (s :: rest2)).length = n :=
        colSums_length (s :: rest2) n (by simp)
          (fun t ht => hr t (List.mem_cons_of_mem _ ht))
      rw [colSums_cons r (s :: rest2) (by simp)]
      have hjv : j < (vecAdd r (colSums (s :: rest2))).length := by
        rw [vecAdd_length, hrn, hcl]
        simp [hj]
      rw [List.getD_eq_getElem _ _ hjv]
      simp only [vecAdd, List.getElem_zipWith]
      have hih := ih (by simp) (fun t ht => hr t (List.mem_cons_of_mem _ ht))
      rw [List.map_cons, List.sum_cons, ← hih,
        List.getD_eq_getElem r 0 (by omega : j < r.length),
        List.getD_eq_getElem (colSums (s :: rest2)) 0 (by omega)]

theorem diag_col_sum (u : Vec) (K : Mat) (v : Vec) (j : Nat) (hj : j < v.length)
    (hKw : ∀ r ∈ K, j < r.length) :
    ((List.zipWith (fun ui r => List.zipWith (fun kij vj => ui * (kij * vj)) r v) u K).map
      (fun r => r.getD j 0)).sum =
    v.getD j 0 * dotp (K.map (fun r => r.getD j 0)) u := by
  induction u generalizing K with
  | nil => simp [dotp]
  | cons u0 us ih =>
    cases K with
    | nil => simp [dotp]
    | cons r Ks =>
      have hjr : j < r.length := hKw r (by simp)
      have hhead : (List.zipWith (fun kij vj => u0 * (kij * vj)) r v).getD j 0 =
          u0 * (r.getD j 0 * v.getD j 0) := by
        have hjz : j < (List.zipWith (fun kij vj => u0 * (kij * vj)) r v).length := by
          rw [List.length_zipWith]; omega
        rw [List.getD_eq_getElem _ _ hjz, List.getElem_zipWith,
          List.getD_eq_getElem _ _ hjr, List.getD_eq_getElem v 0 hj]
      simp only [List.zipWith_cons_cons, List.map_cons, List.sum_cons, hhead]
      rw [ih Ks (fun t ht => hKw t (List.mem_cons_of_mem _ ht))]
      simp [dotp]
      ring

theorem le_listMax (l : List ℚ) (x : ℚ) (h : x ∈ l) : x ≤ listMax l := by
  induction l with
  | nil => simp at h
  | cons y ys ih =>
    rcases List.mem_cons.mp h with h1 | h1
    · subst h1
      exact le_max_left _ _
    · exact le_trans (ih h1) (le_max_right _ _)

theorem sinkhorn_spec (a b : Vec) (K : Mat) (fuel : Nat) (tol : ℚ)
    (hK : isShape K a.length b.length) (hKpos : ∀ r ∈ K, ∀ x ∈ r, 0 < x)
    (ha0 : ∀ x ∈ a, 0 ≤ x) (has : a.sum = 1) (hb0 : ∀ x ∈ b, 0 ≤ x)
    (hbs : b.sum = 1) (hfuel : 1 ≤ fuel) :
    colSums (sinkhorn a b K fuel tol).1 = b ∧
    (sinkhorn a b K fuel tol).1.length = a.length ∧
    ((sinkhorn a b K fuel tol).2 = true → ∀ j, j < a.length →
      |(rowSums (sinkhorn a b K fuel tol).1).getD j 0 - a.getD j 0| < tol) := by
  have hane : a ≠ [] := ne_nil_of_sum_one a has
  have hbne : b ≠ [] := ne_nil_of_sum_one b hbs
  have hma : 0 < a.length := by
    cases a with
    | nil => exact absurd rfl hane
    | cons x xs => simp
  have hnb : 0 < b.length := by
    cases b with
    | nil => exact absurd rfl hbne
    | cons x xs => simp
  have hspec := sinkhornUV_spec a b K hK hKpos ha0 has hb0 hbs fuel hfuel
    (List.replicate a.length 1, List.replicate b.length 1)
    (by intro x hx; rw [List.eq_of_mem_replicate hx]; norm_num)
    (by exact ⟨1, List.mem_replicate.mpr ⟨by omega, rfl⟩, by norm_num⟩)
    (by simp)
  obtain ⟨hrel, hTpos, hu, hv⟩ := hspec
  set uv := sinkhornUV a b K fuel (List.replicate a.length 1, List.replicate b.length 1)
    with huv
  have h1 : (sinkhorn a b K fuel tol).1 = diagScale uv.1 K uv.2 := rfl
  have h2 : (sinkhorn a b K fuel tol).2 =
      decide (sinkResidual a b (diagScale uv.1 K uv.2) < tol) := rfl
  have hGlen : (diagScale uv.1 K uv.2).length = a.length := by
    rw [diagScale, List.length_zipWith, hu.1, hK.1]
    simp
  have hGrows : ∀ r ∈ diagScale uv.1 K uv.2, r.length = b.length := by
    intro r hr
    obtain ⟨ui, Ki, _, hKi, rfl⟩ := exists_of_mem_zipWith _ uv.1 K r hr
    rw [List.length_zipWith, hK.2 Ki hKi, hv.1]
    simp
  have hTlen : (matVec (matTranspose K) uv.1).length = b.length := by
    rw [matVec, List.length_map, (matTranspose_shape K a.length b.length hK hma).1]
  have hTgetD : ∀ j, j < b.length → (matVec (matTranspose K) uv.1).getD j 0 =
      dotp (K.map (fun row => row.getD j 0)) uv.1 := by
    intro j hj
    rw [matVec, List.getD_eq_getElem _ _ (by rw [List.length_map,
      (matTranspose_shape K a.length b.length hK hma).1]; exact hj),
      List.getElem_map]
    congr 1
    rw [← List.getD_eq_getElem (matTranspose K) []
      (by rw [(matTranspose_shape K a.length b.length hK hma).1]; exact hj)]
    exact matTranspose_getD K a.length b.length hK hma j hj
  have hcol : colSums (diagScale uv.1 K uv.2) = b := by
    apply List.ext_getElem
    · rw [colSums_length _ b.length (by
        intro hc
        rw [hc] at hGlen
        simp at hGlen
        omega) hGrows]
    · intro j hj1 hj2
      have hjb : j < b.length := hj2
      rw [← List.getD_eq_getElem (colSums (diagScale uv.1 K uv.2)) 0 hj1,
        colSums_getD _ b.length (by
          intro hc
          rw [hc] at hGlen
          simp at hGlen
          omega) hGrows j hjb]
      have hdcs := diag_col_sum uv.1 K uv.2 j (by rw [hv.1]; exact hjb)
        (fun r hr => by rw [hK.2 r hr]; exact hjb)
      rw [diagScale] at *
      rw [hdcs]
      have hvj : uv.2.getD j 0 = b.getD j 0 / (matVec (matTranspose K) uv.1).getD j 0 := by
        rw [hrel, vecDiv, List.getD_eq_getElem _ _ (by
          rw [List.length_zipWith, hTlen]
          omega), List.getElem_zipWith,
          List.getD_eq_getElem b 0 hjb, List.getD_eq_getElem _ 0 (by rw [hTlen]; exact hjb)]
      have hDpos : 0 < (matVec (matTranspose K) uv.1).getD j 0 :=
        hTpos _ (getD_mem_of_lt _ j (by rw [hTlen]; exact hjb))
      rw [hvj, hTgetD j hjb] at *
      rw [div_mul_cancel₀, List.getD_eq_getElem b 0 hjb]
      exact ne_of_gt hDpos
  refine ⟨by rw [h1]; exact hcol, by rw [h1]; exact hGlen, ?_⟩
  intro hflag j hj
  rw [h2, decide_eq_true_eq] at hflag
  have hjz : j < (List.zipWith (fun x y => |x - y|)
      (rowSums (diagScale uv.1 K uv.2)) a).length := by
    rw [List.length_zipWith, rowSums, List.length_map, hGlen]
    simp [hj]
  have helem : (List.zipWith (fun x y => |x - y|)
      (rowSums (diagScale uv.1 K uv.2)) a)[j] =
      |(rowSums (diagScale uv.1 K uv.2)).getD j 0 - a.getD j 0| := by
    rw [List.getElem_zipWith, List.getD_eq_getElem _ 0 (by
        rw [rowSums, List.length_map, hGlen]; exact hj),
      List.getD_eq_getElem a 0 hj]
  have hle : (List.zipWith (fun x y => |x - y|)
      (rowSums (diagScale uv.1 K uv.2)) a)[j] ≤
      sinkResidual a b (diagScale uv.1 K uv.2) := by
    apply le_listMax
    apply List.mem_append_left
    exact List.getElem_mem hjz
  rw [h1, ← helem]
  calc (List.zipWith (fun x y => |x - y|) (rowSums (diagScale uv.1 K uv.2)) a)[j]
      ≤ sinkResidual a b (diagScale uv.1 K uv.2) := hle
    _ < tol := hflag

theorem isShape_matMap (f : ℚ → ℚ) (A : Mat) (m n : Nat) (h : isShape A m n) :
    isShape (matMap f A) m n := by
  obtain ⟨hl, hr⟩ := h
  constructor
  · simp [matMap, hl]
  · intro r hrm
    simp [matMap] at hrm
    obtain ⟨t, ht, rfl⟩ := hrm
    simp [hr t ht]

theorem posKernel_pos (eps : ℚ) (C : Mat) (heps : 0 < eps) :
    ∀ r ∈ posKernel eps C, ∀ x ∈ r, 0 < x := by
  intro r hr x hx
  simp [posKernel, matMap] at hr
  obtain ⟨t, _, rfl⟩ := hr
  simp at hx
  obtain ⟨c, _, rfl⟩ := hx
  have h1 : 0 ≤ c ^ 2 / eps := div_nonneg (sq_nonneg c) (le_of_lt heps)
  have h2 : 0 < 1 + c ^ 2 / eps := by linarith
  positivity

theorem isShape_posKernel (eps : ℚ) (C : Mat) (m n : Nat) (h : isShape C m n) :
    isShape (posKernel eps C) m n := isShape_matMap _ C m n h

theorem constCmat_shape (K : LossKernel) (C1 C2 : Mat) (p q : Vec) (m n : Nat)
    (h1 : C1.length = m) (h2 : C2.length = n) :
    isShape (constCmat K C1 C2 p q) m n := by
  constructor
  · simp [constCmat, h1]
  · intro r hr
    simp [constCmat] at hr
    obtain ⟨t, _, rfl⟩ := hr
    simp [h2]

theorem matMul_length (A B : Mat) : (matMul A B).length = A.length := by
  simp [matMul]

theorem matMul_rows (A B : Mat) : ∀ r ∈ matMul A B, r.length = (matTranspose B).length := by
  intro r hr
  simp [matMul] at hr
  obtain ⟨t, _, rfl⟩ := hr
  simp

theorem hGh_shape (K : LossKernel) (C1 C2 T : Mat) (m n : Nat)
    (hC1 : isShape C1 m m) (hC2 : isShape C2 n n) (hn : 0 < n) :
    isShape (hGh K C1 C2 T) m n := by
  constructor
  · rw [hGh, matMul_length, matMul_length]
    simp [matMap, hC1.1]
  · intro r hr
    have := matMul_rows (matMul (matMap K.h1 C1) T) (matTranspose (matMap K.h2 C2)) r hr
    rw [this]
    have hsh : isShape (matMap K.h2 C2) n n := isShape_matMap _ C2 n n hC2
    exact (matTranspose_shape (matTranspose (matMap K.h2 C2)) n n
      (matTranspose_shape (matMap K.h2 C2) n n hsh hn) hn).1

theorem gwTens_shape (K : LossKernel) (C1 C2 : Mat) (p q : Vec) (T : Mat)
    (m n : Nat) (hC1 : isShape C1 m m) (hC2 : isShape C2 n n) (hn : 0 < n) :
    isShape (gwTens K C1 C2 p q T) m n :=
  isShape_matSub _ _ m n (constCmat_shape K C1 C2 p q m n hC1.1 hC2.1)
    (hGh_shape K C1 C2 T m n hC1 hC2 hn)

theorem egwLoop_spec (C1 C2 : Mat) (p q : Vec) (K : LossKernel) (eps : ℚ)
    (innerFuel : Nat) (innerTol tol : ℚ) :
    ∀ (fuel : Nat), 1 ≤ fuel → ∀ st : Mat × Bool,
      ∃ T0, egwLoop C1 C2 p q K eps innerFuel innerTol tol fuel st =
        egwStep C1 C2 p q K eps innerFuel innerTol T0 := by
  intro fuel
  induction fuel with
  | zero => intro h; omega
  | succ fuel ih =>
    intro _ st
    by_cases hc : matDist (egwStep C1 C2 p q K eps innerFuel innerTol st.1).1 st.1 ≤ tol
    · exact ⟨st.1, by simp only [egwLoop, if_pos hc]⟩
    · cases fuel with
      | zero =>
        exact ⟨st.1, by simp only [egwLoop, if_neg hc]⟩
      | succ f =>
        obtain ⟨T0, hT0⟩ := ih (by omega) (egwStep C1 C2 p q K eps innerFuel innerTol st.1)
        exact ⟨T0, by simp only [egwLoop, if_neg hc]; exact hT0⟩

theorem entropic_feasible (C1 C2 : Mat) (p q : Vec) (K : LossKernel) (eps : ℚ)
    (outerFuel innerFuel : Nat) (innerTol tol : ℚ) (hpq : validMarginals p q)
    (hC1 : isShape C1 p.length p.length) (hC2 : isShape C2 q.length q.length)
    (heps : 0 < eps) (hof : 1 ≤ outerFuel) (hif : 1 ≤ innerFuel) :
    colSums (entropic_gromov_wasserstein C1 C2 p q K eps outerFuel innerFuel
      innerTol tol).1 = q ∧
    ((entropic_gromov_wasserstein C1 C2 p q K eps outerFuel innerFuel
        innerTol tol).2 = true →
      ∀ j, j < p.length →
        |(rowSums (entropic_gromov_wasserstein C1 C2 p q K eps outerFuel innerFuel
          innerTol tol).1).getD j 0 - p.getD j 0| < innerTol) := by
  obtain ⟨hp0, hq0, hps, hqs⟩ := hpq
  have hqne : q ≠ [] := ne_nil_of_sum_one q hqs
  have hnq : 0 < q.length := by
    cases q with
    | nil => exact absurd rfl hqne
    | cons x xs => simp
  obtain ⟨T0, hT0⟩ := egwLoop_spec C1 C2 p q K eps innerFuel innerTol tol outerFuel hof
    (outerProd p q, false)
  have hrun : entropic_gromov_wasserstein C1 C2 p q K eps outerFuel innerFuel
      innerTol tol = egwStep C1 C2 p q K eps innerFuel innerTol T0 := hT0
  have hKsh : isShape (posKernel eps (smulMat 2 (gwTens K C1 C2 p q T0)))
      p.length q.length :=
    isShape_posKernel eps _ p.length q.length
      (isShape_smulMat 2 _ p.length q.length
        (gwTens_shape K C1 C2 p q T0 p.length q.length hC1 hC2 hnq))
  have hKpos := posKernel_pos eps (smulMat 2 (gwTens K C1 C2 p q T0)) heps
  have hsink := sinkhorn_spec p q (posKernel eps (smulMat 2 (gwTens K C1 C2 p q T0)))
    innerFuel innerTol hKsh hKpos hp0 hps hq0 hqs hif
  rw [hrun]
  exact ⟨hsink.1, fun hflag j hj => hsink.2.2 hflag j hj⟩


/-- C1 (counterexample): the claim "every solver's coupling has row sums equal to
the source marginal within 1e-4 for every valid input" fails on the entropic
solver: on a valid instance (probability marginals, square structure matrices)
whose inner Sinkhorn loop is stopped by the iteration cap before converging, the
returned coupling's row sums are `[9/16, 7/16]`, off the marginal `[1/2, 1/2]`
by `1/16 > 1e-4`.  Only the converged Sinkhorn output satisfies the row
constraint; the cap-stopped output does not. -/
theorem entropic_rowSums_break_tolerance :
    validMarginals [1/2, 1/2] [1/2, 1/2] ∧
    isShape [[0,3],[1,0]] 2 2 ∧ isShape [[0,1],[2,0]] 2 2 ∧
    rowSums (entropic_gromov_wasserstein [[0,3],[1,0]] [[0,1],[2,0]]
      [1/2, 1/2] [1/2, 1/2] square_loss 1 1 1 (1/1000000000) (1/1000000000)).1 =
      [9/16, 7/16] ∧
    ¬ (∀ j, j < 2 →
      |(rowSums (entropic_gromov_wasserstein [[0,3],[1,0]] [[0,1],[2,0]]
        [1/2, 1/2] [1/2, 1/2] square_loss 1 1 1
        (1/1000000000) (1/1000000000)).1).getD j 0 -
        (([1/2, 1/2] : Vec)).getD j 0| ≤ 1/10000) := by
  have heval : rowSums (entropic_gromov_wasserstein [[0,3],[1,0]] [[0,1],[2,0]]
      [1/2, 1/2] [1/2, 1/2] square_loss 1 1 1 (1/1000000000) (1/1000000000)).1 =
      [9/16, 7/16] := by
    norm_num [entropic_gromov_wasserstein, egwLoop, egwStep, sinkhorn, sinkhornUV,
      posKernel, gwTens, constCmat, hGh, matMul, matMap, matTranspose, matSub,
      smulMat, smulVec, outerProd, diagScale, matVec, vecDiv, dotp, matDist,
      listMax, rowSums, colSums, vecAdd, sinkResidual, square_loss,
      List.zipWith, List.range, List.foldr]
  refine ⟨?_, ?_, ?_, heval, ?_⟩
  · refine ⟨?_, ?_, ?_, ?_⟩ <;> norm_num
  · exact ⟨rfl, by norm_num⟩
  · exact ⟨rfl, by norm_num⟩
  · intro hc
    have := hc 0 (by norm_num)
    rw [heval] at this
    norm_num at this
    rw [abs_of_nonneg (by norm_num : (0:ℚ) ≤ 1/16)] at this
    norm_num at this

/-- C1 (amended): for every valid input (probability marginals, matching square
structure matrices), the couplings returned by `gromov_wasserstein`,
`fused_gromov_wasserstein`, `pointwise_gromov_wasserstein` and
`sampled_gromov_wasserstein` satisfy the marginal constraints exactly (hence
within any tolerance, in particular 1e-4); the entropic solver's coupling always
satisfies the column-marginal constraint exactly, and its row sums are within
the inner Sinkhorn tolerance of the source marginal whenever the returned flag
reports that the inner Sinkhorn loop converged. -/
theorem solvers_marginal_constraints (M C1 C2 : Mat) (p q : Vec) (K : LossKernel)
    (loss : ℚ → ℚ → ℚ) (alpha eps tol innerTol otol : ℚ)
    (fuel maxIter outerFuel innerFuel seed : Nat) (hpq : validMarginals p q)
    (hC1 : isShape C1 p.length p.length) (hC2 : isShape C2 q.length q.length)
    (heps : 0 < eps) (hof : 1 ≤ outerFuel) (hif : 1 ≤ innerFuel) :
    (rowSums (gromov_wasserstein C1 C2 p q K fuel tol) = p ∧
     colSums (gromov_wasserstein C1 C2 p q K fuel tol) = q) ∧
    (rowSums (fused_gromov_wasserstein M C1 C2 p q K alpha fuel tol) = p ∧
     colSums (fused_gromov_wasserstein M C1 C2 p q K alpha fuel tol) = q) ∧
    (rowSums (pointwise_gromov_wasserstein C1 C2 p q loss maxIter alpha seed).1 = p ∧
     colSums (pointwise_gromov_wasserstein C1 C2 p q loss maxIter alpha seed).1 = q) ∧
    (rowSums (sampled_gromov_wasserstein C1 C2 p q loss maxIter eps seed).1 = p ∧
     colSums (sampled_gromov_wasserstein C1 C2 p q loss maxIter eps seed).1 = q) ∧
    (colSums (entropic_gromov_wasserstein C1 C2 p q K eps outerFuel innerFuel
        innerTol otol).1 = q ∧
     ((entropic_gromov_wasserstein C1 C2 p q K eps outerFuel innerFuel
         innerTol otol).2 = true →
       ∀ j, j < p.length →
         |(rowSums (entropic_gromov_wasserstein C1 C2 p q K eps outerFuel innerFuel
           innerTol otol).1).getD j 0 - p.getD j 0| < innerTol)) := by
  have h1 := gromov_wasserstein_feasible C1 C2 p q K fuel tol hpq
  have h2 := fused_gromov_wasserstein_feasible M C1 C2 p q K alpha fuel tol hpq
  have h3 := pointwise_feasible C1 C2 p q loss maxIter alpha seed hpq
  have h4 := sampled_feasible C1 C2 p q loss maxIter eps seed hpq
  have h5 := entropic_feasible C1 C2 p q K eps outerFuel innerFuel innerTol otol
    hpq hC1 hC2 heps hof hif
  exact ⟨⟨h1.1, h1.2.1⟩, ⟨h2.1, h2.2.1⟩, h3, h4, h5⟩

/-- Witness for C1 (amended) at a concrete valid instance. -/
theorem solvers_marginal_constraints_witness :
    (validMarginals [1/2, 1/2] [1/2, 1/2] ∧ isShape [[0,1],[1,0]] 2 2 ∧
      (0 : ℚ) < 1 ∧ 1 ≤ 1) ∧
    (rowSums (gromov_wasserstein [[0,1],[1,0]] [[0,1],[1,0]]
        [1/2, 1/2] [1/2, 1/2] square_loss 2 (1/1000)) = [1/2, 1/2] ∧
     colSums (gromov_wasserstein [[0,1],[1,0]] [[0,1],[1,0]]
        [1/2, 1/2] [1/2, 1/2] square_loss 2 (1/1000)) = [1/2, 1/2]) ∧
    colSums (entropic_gromov_wasserstein [[0,1],[1,0]] [[0,1],[1,0]]
        [1/2, 1/2] [1/2, 1/2] square_loss 1 1 1 (1/1000) (1/1000)).1 = [1/2, 1/2] := by
  have hval : validMarginals [1/2, 1/2] [1/2, 1/2] := by
    refine ⟨?_, ?_, ?_, ?_⟩ <;> norm_num
  have hsh : isShape [[0,1],[1,0]] 2 2 := ⟨rfl, by norm_num⟩
  have hsh2 : isShape ([[0,1],[1,0]] : Mat) ([1/2, 1/2] : Vec).length
      ([1/2, 1/2] : Vec).length := by
    simpa using hsh
  have h := solvers_marginal_constraints [[0,1],[1,0]] [[0,1],[1,0]] [[0,1],[1,0]]
    [1/2, 1/2] [1/2, 1/2] square_loss (fun a b => |a - b|) (1/2) 1 (1/1000)
    (1/1000) (1/1000) 2 1 1 1 0 hval hsh2 hsh2 (by norm_num) le_rfl le_rfl
  exact ⟨⟨hval, hsh, by norm_num, le_rfl⟩, h.1, h.2.2.2.2.1⟩

/-! ### The mirrored-structure edge case: the flip coupling is optimal -/

theorem rsum_succ (n : Nat) (f : Nat → ℚ) : rsum (n + 1) f = rsum n f + f n := by
  simp [rsum, List.range_succ]

theorem rsum_eq_zero (n : Nat) (f : Nat → ℚ) (h : ∀ i, i < n → f i = 0) :
    rsum n f = 0 := by
  apply List.sum_eq_zero
  intro x hx
  rw [List.mem_map] at hx
  obtain ⟨i, hi, rfl⟩ := hx
  exact h i (List.mem_range.mp hi)

theorem rsum_nonneg (n : Nat) (f : Nat → ℚ) (h : ∀ i, i < n → 0 ≤ f i) :
    0 ≤ rsum n f := by
  apply List.sum_nonneg
  intro x hx
  rw [List.mem_map] at hx
  obtain ⟨i, hi, rfl⟩ := hx
  exact h i (List.mem_range.mp hi)

theorem rsum_indicator (n t : Nat) (c : ℚ) (ht : t < n) :
    rsum n (fun j => if j = t then c else 0) = c := by
  induction n with
  | zero => omega
  | succ n ih =>
    rw [rsum_succ]
    by_cases hc : t = n
    · have h0 : rsum n (fun j => if j = t then c else 0) = 0 :=
        rsum_eq_zero n _ (fun i hi => by
          have hne : i ≠ t := by omega
          simp [hne])
      rw [h0, if_pos hc.symm, zero_add]
    · have htn : t < n := by omega
      rw [ih htn, if_neg (by omega : ¬ n = t)]
      simp

theorem flipPerm_get (n i j : Nat) (hi : i < n) (hj : j < n) :
    matGet (flipPerm n) i j = if j = n - 1 - i then ((n : ℚ))⁻¹ else 0 := by
  unfold matGet flipPerm
  rw [List.getD_eq_getElem _ _ (by simp [hi] : i < ((List.range n).map _).length),
    List.getElem_map, List.getElem_range,
    List.getD_eq_getElem _ _ (by simp [hj] : j < ((List.range n).map _).length),
    List.getElem_map, List.getElem_range]

theorem flipPerm_row (n i : Nat) (hi : i < n) :
    (List.range n).map (fun j => if j = n - 1 - i then ((n : ℚ))⁻¹ else 0) =
      (flipPerm n).getD i [] := by
  unfold flipPerm
  rw [List.getD_eq_getElem _ _ (by simp [hi] : i < ((List.range n).map _).length),
    List.getElem_map, List.getElem_range]

theorem flipPerm_shape (n : Nat) : isShape (flipPerm n) n n := by
  constructor
  · simp [flipPerm]
  · intro r hr
    simp [flipPerm] at hr
    obtain ⟨i, _, rfl⟩ := hr
    simp

theorem flipPerm_rowSums (n : Nat) (hn : 0 < n) : rowSums (flipPerm n) = unif n := by
  unfold rowSums flipPerm unif
  rw [List.map_map]
  have h1 : ∀ i ∈ List.range n, (List.sum ∘ fun i => (List.range n).map
      (fun j => if j = n - 1 - i then ((n : ℚ))⁻¹ else 0)) i = ((n : ℚ))⁻¹ := by
    intro i hi
    simp only [Function.comp]
    exact rsum_indicator n (n - 1 - i) _ (by omega)
  rw [List.map_congr_left h1]
  simp [List.map_const']

theorem flipPerm_colSums (n : Nat) (hn : 0 < n) : colSums (flipPerm n) = unif n := by
  have hsh := flipPerm_shape n
  have hne : flipPerm n ≠ [] := by
    intro hc
    rw [hc] at hsh
    simp [isShape] at hsh
    omega
  apply List.ext_getElem
  · rw [colSums_length _ n hne hsh.2]
    simp [unif]
  · intro j hj1 hj2
    have hjn : j < n := by
      rw [colSums_length _ n hne hsh.2] at hj1
      exact hj1
    rw [← List.getD_eq_getElem (colSums (flipPerm n)) 0 hj1,
      colSums_getD _ n hne hsh.2 j hjn]
    have hrows : (flipPerm n).map (fun r => r.getD j 0) =
        (List.range n).map (fun i => if i = n - 1 - j then ((n : ℚ))⁻¹ else 0) := by
      unfold flipPerm
      rw [List.map_map]
      apply List.map_congr_left
      intro i hi
      have hin : i < n := List.mem_range.mp hi
      simp only [Function.comp]
      rw [List.getD_eq_getElem _ _ (by simp [hjn] : j < ((List.range n).map _).length),
        List.getElem_map, List.getElem_range]
      by_cases hc : j = n - 1 - i
      · rw [if_pos hc, if_pos (by omega)]
      · rw [if_neg hc, if_neg (by omega)]
    rw [hrows]
    have : ((List.range n).map
        (fun i => if i = n - 1 - j then ((n : ℚ))⁻¹ else 0)).sum =
        rsum n (fun i => if i = n - 1 - j then ((n : ℚ))⁻¹ else 0) := rfl
    rw [this, rsum_indicator n (n - 1 - j) _ (by omega)]
    simp [unif]

theorem gwObjectiveFull_flip_zero (C1 C2 : Mat) (n : Nat)
    (hrev : isRevOf C1 C2 n) :
    gwObjectiveFull sqLoss C1 C2 (flipPerm n) n n = 0 := by
  unfold gwObjectiveFull
  apply rsum_eq_zero
  intro i hi
  apply rsum_eq_zero
  intro j hj
  apply rsum_eq_zero
  intro k hk
  apply rsum_eq_zero
  intro l hl
  by_cases hij : j = n - 1 - i
  · by_cases hkl : l = n - 1 - k
    · have h1 : sqLoss (matGet C1 i k) (matGet C2 j l) = 0 := by
        rw [hij, hkl, ← hrev i k hi hk]
        simp [sqLoss]
      rw [h1]
      ring
    · have h2 : matGet (flipPerm n) k l = 0 := by
        rw [flipPerm_get n k l hk hl, if_neg hkl]
      rw [h2]
      ring
  · have h2 : matGet (flipPerm n) i j = 0 := by
      rw [flipPerm_get n i j hi hj, if_neg hij]
    rw [h2]
    ring

theorem gwObjectiveFull_nonneg (C1 C2 G : Mat) (m n : Nat)
    (hG : ∀ i j, 0 ≤ matGet G i j) :
    0 ≤ gwObjectiveFull sqLoss C1 C2 G m n := by
  unfold gwObjectiveFull
  apply rsum_nonneg
  intro i _
  apply rsum_nonneg
  intro j _
  apply rsum_nonneg
  intro k _
  apply rsum_nonneg
  intro l _
  exact mul_nonneg (mul_nonneg (by simp [sqLoss]; positivity) (hG i j)) (hG k l)



set_option maxHeartbeats 1000000 in
/-- C2 (counterexample): the claim "on a mirrored instance (C1 the row/column
reversal of C2) with uniform marginals, gromov_wasserstein with square loss
returns the reversal permutation matrix divided by n" fails at the constant
(all-zero) mirrored instance: the gradient vanishes identically, the line search
returns step 0, and the solver stops at the initial independent coupling
`ones/n²`, not at the flipped identity `/n`.  (The distance still is 0, since
every coupling is optimal there.) -/
theorem gw_mirror_returns_non_flip :
    isRevOf [[0,0],[0,0]] [[0,0],[0,0]] 2 ∧
    gromov_wasserstein [[0,0],[0,0]] [[0,0],[0,0]] (unif 2) (unif 2) square_loss
      2 (1/1000000000) = [[1/4, 1/4], [1/4, 1/4]] ∧
    gromov_wasserstein [[0,0],[0,0]] [[0,0],[0,0]] (unif 2) (unif 2) square_loss
      2 (1/1000000000) ≠ flipPerm 2 := by
  have heval : gromov_wasserstein [[0,0],[0,0]] [[0,0],[0,0]] (unif 2) (unif 2)
      square_loss 2 (1/1000000000) = [[1/4, 1/4], [1/4, 1/4]] := by
    norm_num [gromov_wasserstein, cgRun, cgLoop, fgwObj, fgwGrad, gwlossF, gwTens,
      constCmat, hGh, matMul, matMap, matTranspose, matSub, matAdd, smulMat,
      smulVec, outerProd, zeroMat, unif, emd, nwcorner, nwRec, frobDot, dotp,
      lineSearchGamma, lsCoeffA, lsCoeffB, combStep, vecAdd, square_loss,
      List.zipWith, List.range, List.replicate, CGResult.T]
  refine ⟨?_, heval, ?_⟩
  · intro i k hi hk
    interval_cases i <;> interval_cases k <;> norm_num [matGet]
  · rw [heval]
    have hflip : flipPerm 2 = [[0, 1/2], [1/2, 0]] := by
      norm_num [flipPerm, List.range, List.range.loop]
    rw [hflip]
    intro hc
    have := congrArg (fun A => matGet A 0 0) hc
    norm_num [matGet] at this

/-- C2 (amended): on every mirrored instance (C1 the row/column reversal of C2,
both n × n) the reversal permutation coupling `flipPerm n` is feasible for the
uniform marginals and optimal for the square-loss Gromov-Wasserstein objective:
it attains objective value 0, the minimum over all entrywise-nonnegative
couplings, so the optimal GW distance of the mirrored instance is 0.  (The
solver's returned coupling can differ from it when the optimum is not unique,
as the counterexample shows.) -/
theorem mirror_flip_coupling_optimal (C1 C2 : Mat) (n : Nat) (hn : 0 < n)
    (hrev : isRevOf C1 C2 n) :
    (rowSums (flipPerm n) = unif n ∧ colSums (flipPerm n) = unif n) ∧
    gwObjectiveFull sqLoss C1 C2 (flipPerm n) n n = 0 ∧
    (∀ G : Mat, (∀ i j, 0 ≤ matGet G i j) →
      gwObjectiveFull sqLoss C1 C2 (flipPerm n) n n ≤
        gwObjectiveFull sqLoss C1 C2 G n n) := by
  refine ⟨⟨flipPerm_rowSums n hn, flipPerm_colSums n hn⟩,
    gwObjectiveFull_flip_zero C1 C2 n hrev, ?_⟩
  intro G hG
  rw [gwObjectiveFull_flip_zero C1 C2 n hrev]
  exact gwObjectiveFull_nonneg C1 C2 G n n hG

/-- Witness for C2 (amended) at a concrete mirrored 2 × 2 instance. -/
theorem mirror_flip_coupling_optimal_witness :
    (0 < 2 ∧ isRevOf [[0,1],[1,0]] [[0,1],[1,0]] 2) ∧
    (rowSums (flipPerm 2) = unif 2 ∧ colSums (flipPerm 2) = unif 2) ∧
    gwObjectiveFull sqLoss [[0,1],[1,0]] [[0,1],[1,0]] (flipPerm 2) 2 2 = 0 := by
  have hrev : isRevOf [[0,1],[1,0]] [[0,1],[1,0]] 2 := by
    intro i k hi hk
    interval_cases i <;> interval_cases k <;> norm_num [matGet]
  have h := mirror_flip_coupling_optimal [[0,1],[1,0]] [[0,1],[1,0]] 2
    (by norm_num) hrev
  exact ⟨⟨by norm_num, hrev⟩, h.1, h.2.1⟩

/-! ### Degenerate mixing weights of the fused solver -/

theorem smulMat_one (A : Mat) : smulMat 1 A = A := by
  unfold smulMat smulVec
  have h : ∀ r : List ℚ, r.map (fun x => (1 : ℚ) * x) = r := fun r => by simp
  simp [h]

theorem smulVec_zero (r : List ℚ) : smulVec 0 r = List.replicate r.length 0 := by
  simp [smulVec, List.map_const']

theorem smulMat_zero_eq (A : Mat) (m n : Nat) (h : isShape A m n) :
    smulMat 0 A = zeroMat m n := by
  obtain ⟨hl, hr⟩ := h
  subst hl
  induction A with
  | nil => simp [smulMat, zeroMat]
  | cons r rest ih =>
    simp only [smulMat, List.map_cons, zeroMat, List.length_cons, List.replicate_succ]
    congr 1
    · rw [smulVec_zero, hr r (by simp)]
    · have := ih (fun t ht => hr t (by simp [ht]))
      simpa [smulMat, zeroMat] using this

theorem matAdd_zero_right (A : Mat) (m n : Nat) (h : isShape A m n) :
    matAdd A (zeroMat m n) = A := by
  obtain ⟨hl, hr⟩ := h
  subst hl
  induction A with
  | nil => simp [matAdd, zeroMat]
  | cons r rest ih =>
    simp only [matAdd, zeroMat, List.length_cons, List.replicate_succ,
      List.zipWith_cons_cons]
    congr 1
    · exact vecAdd_replicate_zero_right r n (hr r (by simp))
    · have := ih (fun t ht => hr t (by simp [ht]))
      simpa [matAdd, zeroMat] using this

theorem matAdd_zero_left (A : Mat) (m n : Nat) (h : isShape A m n) :
    matAdd (zeroMat m n) A = A := by
  obtain ⟨hl, hr⟩ := h
  subst hl
  induction A with
  | nil => simp [matAdd, zeroMat]
  | cons r rest ih =>
    simp only [matAdd, zeroMat, List.length_cons, List.replicate_succ,
      List.zipWith_cons_cons]
    congr 1
    · exact vecAdd_replicate_zero r n (hr r (by simp))
    · have := ih (fun t ht => hr t (by simp [ht]))
      simpa [matAdd, zeroMat] using this

theorem combStep_zero (G E : Mat) (m n : Nat) (hG : isShape G m n)
    (hE : isShape E m n) : combStep 0 G E = G := by
  unfold combStep
  rw [show (1 : ℚ) - 0 = 1 by norm_num, smulMat_one,
    smulMat_zero_eq E m n hE, matAdd_zero_right G m n hG]

theorem combStep_one (G E : Mat) (m n : Nat) (hG : isShape G m n)
    (hE : isShape E m n) : combStep 1 G E = E := by
  unfold combStep
  rw [show (1 : ℚ) - 1 = 0 by norm_num, smulMat_one,
    smulMat_zero_eq G m n hG, matAdd_zero_left E m n hE]

theorem dotp_sub : ∀ (r u v : Vec), r.length = u.length → u.length = v.length →
    dotp r (List.zipWith (· - ·) u v) = dotp r u - dotp r v := by
  intro r
  induction r with
  | nil => intro u v _ _; simp [dotp]
  | cons x xs ih =>
    intro u v hru huv
    cases u with
    | nil => simp at hru
    | cons y ys =>
      cases v with
      | nil => simp at huv
      | cons z zs =>
        simp only [List.zipWith_cons_cons, dotp, List.sum_cons]
        have := ih ys zs (by simp at hru; omega) (by simp at huv; omega)
        simp only [dotp] at this
        rw [this]
        ring

theorem frobDot_matSub : ∀ (M E G : Mat) (n : Nat), (∀ r ∈ M, r.length = n) →
    (∀ r ∈ E, r.length = n) → (∀ r ∈ G, r.length = n) →
    M.length = E.length → E.length = G.length →
    frobDot M (matSub E G) = frobDot M E - frobDot M G := by
  intro M
  induction M with
  | nil => intro E G n _ _ _ _ _; simp [frobDot, matSub]
  | cons r rest ih =>
    intro E G n hM hE hG h1 h2
    cases E with
    | nil => simp at h1
    | cons e es =>
      cases G with
      | nil => simp at h2
      | cons g gs =>
        simp only [matSub, List.zipWith_cons_cons, frobDot, List.sum_cons]
        have hd : dotp r (List.zipWith (· - ·) e g) = dotp r e - dotp r g :=
          dotp_sub r e g (by rw [hM r (by simp), hE e (by simp)])
            (by rw [hE e (by simp), hG g (by simp)])
        have ht := ih es gs n (fun t hh => hM t (by simp [hh]))
          (fun t hh => hE t (by simp [hh])) (fun t hh => hG t (by simp [hh]))
          (by simp at h1 ⊢; omega) (by simp at h2 ⊢; omega)
        simp only [frobDot, matSub] at ht
        rw [hd, ht]
        ring

theorem frobDot_matSub_shape (M E G : Mat) (m n : Nat) (hM : isShape M m n)
    (hE : isShape E m n) (hG : isShape G m n) :
    frobDot M (matSub E G) = frobDot M E - frobDot M G :=
  frobDot_matSub M E G n hM.2 hE.2 hG.2 (by rw [hM.1, hE.1]) (by rw [hE.1, hG.1])

theorem fgwObj_one (M M2 : Mat) (K : LossKernel) (C1 C2 : Mat) (p q : Vec)
    (G : Mat) : fgwObj 1 M K C1 C2 p q G = fgwObj 1 M2 K C1 C2 p q G := by
  unfold fgwObj
  ring

theorem lsCoeffB_one (M M2 : Mat) (K : LossKernel) (C1 C2 : Mat) (p q : Vec)
    (G Δ : Mat) : lsCoeffB 1 M K C1 C2 p q G Δ = lsCoeffB 1 M2 K C1 C2 p q G Δ := by
  unfold lsCoeffB
  ring

theorem fgwObj_zero (M : Mat) (K : LossKernel) (C1 C2 : Mat) (p q : Vec)
    (G : Mat) : fgwObj 0 M K C1 C2 p q G = frobDot M G := by
  unfold fgwObj
  ring

theorem lsCoeffA_zero (K : LossKernel) (C1 C2 : Mat) (Δ : Mat) :
    lsCoeffA 0 K C1 C2 Δ = 0 := by
  unfold lsCoeffA
  ring

theorem lsCoeffB_zero (M : Mat) (K : LossKernel) (C1 C2 : Mat) (p q : Vec)
    (G Δ : Mat) : lsCoeffB 0 M K C1 C2 p q G Δ = frobDot M Δ := by
  unfold lsCoeffB
  ring

theorem fgwGrad_zero (M : Mat) (K : LossKernel) (C1 C2 : Mat) (p q : Vec)
    (G : Mat) (m n : Nat) (hM : isShape M m n) (hC1 : isShape C1 m m)
    (hC2 : isShape C2 n n) (hn : 0 < n) :
    fgwGrad 0 M K C1 C2 p q G = M := by
  unfold fgwGrad
  rw [show (1 : ℚ) - 0 = 1 by norm_num, show (2 : ℚ) * 0 = 0 by norm_num,
    smulMat_one, smulMat_zero_eq _ m n (gwTens_shape K C1 C2 p q G m n hC1 hC2 hn),
    matAdd_zero_right M m n hM]

theorem cgLoop_alpha_one (p q : Vec) (M : Mat) (K : LossKernel) (C1 C2 : Mat)
    (tol : ℚ) (hM : isShape M p.length q.length) :
    ∀ (fuel done : Nat) (G : Mat) (fG : ℚ),
      cgLoop p q M K C1 C2 1 tol fuel done G fG =
      cgLoop p q (zeroMat p.length q.length) K C1 C2 1 tol fuel done G fG := by
  have hgrd : ∀ G : Mat, fgwGrad 1 M K C1 C2 p q G =
      fgwGrad 1 (zeroMat p.length q.length) K C1 C2 p q G := by
    intro G
    unfold fgwGrad
    rw [show (1 : ℚ) - 1 = 0 by norm_num, smulMat_zero_eq M _ _ hM,
      smulMat_zero_eq (zeroMat p.length q.length) _ _
        (isShape_zeroMat p.length q.length)]
  have hobj : ∀ G : Mat, fgwObj 1 M K C1 C2 p q G =
      fgwObj 1 (zeroMat p.length q.length) K C1 C2 p q G :=
    fun G => fgwObj_one M (zeroMat p.length q.length) K C1 C2 p q G
  have hb : ∀ G Δ : Mat, lsCoeffB 1 M K C1 C2 p q G Δ =
      lsCoeffB 1 (zeroMat p.length q.length) K C1 C2 p q G Δ :=
    fun G Δ => lsCoeffB_one M (zeroMat p.length q.length) K C1 C2 p q G Δ
  intro fuel
  induction fuel with
  | zero => intro done G fG; rfl
  | succ fuel ih =>
    intro done G fG
    simp only [cgLoop, hgrd, hobj, hb]
    by_cases hstop : |fgwObj 1 (zeroMat p.length q.length) K C1 C2 p q
        (combStep (lineSearchGamma
          (lsCoeffA 1 K C1 C2 (matSub (emd p q
            (fgwGrad 1 (zeroMat p.length q.length) K C1 C2 p q G)) G))
          (lsCoeffB 1 (zeroMat p.length q.length) K C1 C2 p q G
            (matSub (emd p q
              (fgwGrad 1 (zeroMat p.length q.length) K C1 C2 p q G)) G)))
          G (emd p q (fgwGrad 1 (zeroMat p.length q.length) K C1 C2 p q G))) - fG| ≤
        tol * |fgwObj 1 (zeroMat p.length q.length) K C1 C2 p q
        (combStep (lineSearchGamma
          (lsCoeffA 1 K C1 C2 (matSub (emd p q
            (fgwGrad 1 (zeroMat p.length q.length) K C1 C2 p q G)) G))
          (lsCoeffB 1 (zeroMat p.length q.length) K C1 C2 p q G
            (matSub (emd p q
              (fgwGrad 1 (zeroMat p.length q.length) K C1 C2 p q G)) G)))
          G (emd p q (fgwGrad 1 (zeroMat p.length q.length) K C1 C2 p q G)))|
    · rw [if_pos hstop, if_pos hstop]
    · rw [if_neg hstop, if_neg hstop, ih]

/-- C4 first half: with mixing weight 1 the fused solver coincides exactly with
the pure Gromov-Wasserstein solver. -/
theorem fgw_alpha_one_eq_gw (M C1 C2 : Mat) (p q : Vec) (K : LossKernel)
    (fuel : Nat) (tol : ℚ) (hM : isShape M p.length q.length) :
    fused_gromov_wasserstein M C1 C2 p q K 1 fuel tol =
      gromov_wasserstein C1 C2 p q K fuel tol := by
  unfold fused_gromov_wasserstein gromov_wasserstein cgRun
  rw [cgLoop_alpha_one p q M K C1 C2 tol hM, fgwObj_one M (zeroMat p.length q.length)]

theorem cgLoop_alpha_zero_fix (p q : Vec) (M : Mat) (K : LossKernel)
    (C1 C2 : Mat) (tol : ℚ) (hpq : validMarginals p q)
    (hM : isShape M p.length q.length) (hC1 : isShape C1 p.length p.length)
    (hC2 : isShape C2 q.length q.length) (hnq : 0 < q.length) (htol : 0 ≤ tol) :
    ∀ (fuel done : Nat),
      (cgLoop p q M K C1 C2 0 tol fuel done (emd p q M)
        (frobDot M (emd p q M))).T = emd p q M := by
  have hE := emd_feasible p q M hpq
  intro fuel done
  cases fuel with
  | zero => rfl
  | succ f =>
    simp only [cgLoop]
    rw [fgwGrad_zero M K C1 C2 p q (emd p q M) p.length q.length hM hC1 hC2 hnq]
    rw [lsCoeffA_zero, lsCoeffB_zero,
      frobDot_matSub_shape M (emd p q M) (emd p q M) p.length q.length hM
        hE.2.2 hE.2.2, sub_self]
    rw [show lineSearchGamma 0 0 = 0 from by norm_num [lineSearchGamma]]
    rw [combStep_zero (emd p q M) (emd p q M) p.length q.length hE.2.2 hE.2.2]
    rw [fgwObj_zero, sub_self, abs_zero]
    rw [if_pos (mul_nonneg htol (abs_nonneg _))]

/-- C4 second half: with mixing weight 0 the fused solver's coupling attains
exactly the transport cost of the exact-transport coupling on the feature cost
alone (the coupling matrices themselves may differ when the linear program has
several optima). -/
theorem fgw_alpha_zero_cost (M C1 C2 : Mat) (p q : Vec) (K : LossKernel)
    (fuel : Nat) (tol : ℚ) (hpq : validMarginals p q)
    (hM : isShape M p.length q.length) (hC1 : isShape C1 p.length p.length)
    (hC2 : isShape C2 q.length q.length) (htol : 0 ≤ tol) (hfuel : 1 ≤ fuel) :
    frobDot M (fused_gromov_wasserstein M C1 C2 p q K 0 fuel tol) =
      frobDot M (emd p q M) := by
  have hE := emd_feasible p q M hpq
  have hG0 := isShape_outer p q
  have hnq : 0 < q.length := by
    have := ne_nil_of_sum_one q hpq.2.2.2
    cases q with
    | nil => exact absurd rfl this
    | cons x xs => simp
  cases fuel with
  | zero => omega
  | succ f =>
    unfold fused_gromov_wasserstein cgRun
    simp only [cgLoop]
    rw [fgwGrad_zero M K C1 C2 p q (outerProd p q) p.length q.length hM hC1 hC2 hnq]
    rw [lsCoeffA_zero, lsCoeffB_zero,
      frobDot_matSub_shape M (emd p q M) (outerProd p q) p.length q.length hM
        hE.2.2 hG0]
    have hsle : frobDot M (emd p q M) - frobDot M (outerProd p q) ≤ 0 :=
      sub_nonpos.mpr (emd_cost_le_outer p q M)
    rcases lt_or_eq_of_le hsle with hslt | hseq
    · rw [show lineSearchGamma 0 (frobDot M (emd p q M) - frobDot M (outerProd p q)) =
          1 from by
        unfold lineSearchGamma
        rw [if_neg (by norm_num), if_pos (by linarith)]]
      rw [combStep_one (outerProd p q) (emd p q M) p.length q.length hG0 hE.2.2]
      by_cases hstop : |fgwObj 0 M K C1 C2 p q (emd p q M) -
          fgwObj 0 M K C1 C2 p q (outerProd p q)| ≤
          tol * |fgwObj 0 M K C1 C2 p q (emd p q M)|
      · rw [if_pos hstop]
      · rw [if_neg hstop]
        have := cgLoop_alpha_zero_fix p q M K C1 C2 tol hpq hM hC1 hC2 hnq htol f 1
        rw [show fgwObj 0 M K C1 C2 p q (emd p q M) = frobDot M (emd p q M) from
          fgwObj_zero M K C1 C2 p q (emd p q M)]
        rw [this]
    · rw [show lineSearchGamma 0 (frobDot M (emd p q M) - frobDot M (outerProd p q)) =
          0 from by
        unfold lineSearchGamma
        rw [if_neg (by norm_num), if_neg (by linarith)]]
      rw [combStep_zero (outerProd p q) (emd p q M) p.length q.length hG0 hE.2.2]
      rw [if_pos (by
        rw [sub_self, abs_zero]
        exact mul_nonneg htol (abs_nonneg _))]
      show frobDot M (outerProd p q) = frobDot M (emd p q M)
      linarith

set_option maxHeartbeats 1000000 in
/-- C4 (counterexample): the claim "fused_gromov_wasserstein with α = 0 returns
the same coupling as plain exact transport on M alone" fails when the linear
program has several optima: on the all-zero feature cost every coupling has
cost 0, the line search takes step 0, and the fused solver stops at the
independent coupling `ones/4`, while the exact solver returns the basic
(vertex) solution `Id/2`. -/
theorem fgw_alpha_zero_not_emd :
    fused_gromov_wasserstein [[0,0],[0,0]] [[0,0],[0,0]] [[0,0],[0,0]]
      (unif 2) (unif 2) square_loss 0 2 (1/1000000000) = [[1/4, 1/4], [1/4, 1/4]] ∧
    emd (unif 2) (unif 2) [[0,0],[0,0]] = [[1/2, 0], [0, 1/2]] ∧
    fused_gromov_wasserstein [[0,0],[0,0]] [[0,0],[0,0]] [[0,0],[0,0]]
      (unif 2) (unif 2) square_loss 0 2 (1/1000000000) ≠
      emd (unif 2) (unif 2) [[0,0],[0,0]] := by
  have heval : fused_gromov_wasserstein [[0,0],[0,0]] [[0,0],[0,0]] [[0,0],[0,0]]
      (unif 2) (unif 2) square_loss 0 2 (1/1000000000) = [[1/4, 1/4], [1/4, 1/4]] := by
    norm_num [fused_gromov_wasserstein, cgRun, cgLoop, fgwObj, fgwGrad, gwlossF,
      gwTens, constCmat, hGh, matMul, matMap, matTranspose, matSub, matAdd,
      smulMat, smulVec, outerProd, zeroMat, unif, emd, nwcorner, nwRec, frobDot,
      dotp, lineSearchGamma, lsCoeffA, lsCoeffB, combStep, vecAdd, square_loss,
      List.zipWith, List.range, List.replicate, CGResult.T]
  have hemd : emd (unif 2) (unif 2) [[0,0],[0,0]] = [[1/2, 0], [0, 1/2]] := by
    norm_num [emd, nwcorner, nwRec, outerProd, frobDot, dotp, unif,
      List.zipWith, List.replicate]
  refine ⟨heval, hemd, ?_⟩
  rw [heval, hemd]
  intro hc
  have := congrArg (fun A => matGet A 0 0) hc
  norm_num [matGet] at this

/-- C4 (amended): with mixing weight α = 1 the fused solver returns exactly the
pure Gromov-Wasserstein coupling; with α = 0 it returns a coupling whose
transport cost on the feature matrix M equals that of the plain exact-transport
coupling on M (the two coupling matrices can differ when the transport problem
has several optima, e.g. a constant M). -/
theorem fgw_degenerate_alphas (M C1 C2 : Mat) (p q : Vec) (K : LossKernel)
    (fuel : Nat) (tol : ℚ) (hpq : validMarginals p q)
    (hM : isShape M p.length q.length) (hC1 : isShape C1 p.length p.length)
    (hC2 : isShape C2 q.length q.length) (htol : 0 ≤ tol) (hfuel : 1 ≤ fuel) :
    fused_gromov_wasserstein M C1 C2 p q K 1 fuel tol =
      gromov_wasserstein C1 C2 p q K fuel tol ∧
    frobDot M (fused_gromov_wasserstein M C1 C2 p q K 0 fuel tol) =
      frobDot M (emd p q M) :=
  ⟨fgw_alpha_one_eq_gw M C1 C2 p q K fuel tol hM,
   fgw_alpha_zero_cost M C1 C2 p q K fuel tol hpq hM hC1 hC2 htol hfuel⟩

/-- Witness for C4 (amended) at a concrete 2 × 2 instance. -/
theorem fgw_degenerate_alphas_witness :
    (validMarginals [1/2, 1/2] [1/2, 1/2] ∧ isShape [[0,1],[1,0]] 2 2 ∧
      (0 : ℚ) ≤ 1/1000 ∧ 1 ≤ 2) ∧
    (fused_gromov_wasserstein [[0,1],[1,0]] [[0,1],[1,0]] [[0,1],[1,0]]
        [1/2, 1/2] [1/2, 1/2] square_loss 1 2 (1/1000) =
      gromov_wasserstein [[0,1],[1,0]] [[0,1],[1,0]] [1/2, 1/2] [1/2, 1/2]
        square_loss 2 (1/1000) ∧
     frobDot [[0,1],[1,0]] (fused_gromov_wasserstein [[0,1],[1,0]] [[0,1],[1,0]]
        [[0,1],[1,0]] [1/2, 1/2] [1/2, 1/2] square_loss 0 2 (1/1000)) =
      frobDot [[0,1],[1,0]] (emd [1/2, 1/2] [1/2, 1/2] [[0,1],[1,0]])) := by
  have hval : validMarginals [1/2, 1/2] [1/2, 1/2] := by
    refine ⟨?_, ?_, ?_, ?_⟩ <;> norm_num
  have hsh : isShape [[0,1],[1,0]] 2 2 := ⟨rfl, by norm_num⟩
  have hsh2 : isShape ([[0,1],[1,0]] : Mat) ([1/2, 1/2] : Vec).length
      ([1/2, 1/2] : Vec).length := by simpa using hsh
  exact ⟨⟨hval, hsh, by norm_num, by omega⟩,
    fgw_degenerate_alphas [[0,1],[1,0]] [[0,1],[1,0]] [[0,1],[1,0]]
      [1/2, 1/2] [1/2, 1/2] square_loss 2 (1/1000) hval hsh2 hsh2 hsh2
      (by norm_num) (by omega)⟩

/-- C10: the scalar distance computed by `gromov_wasserstein2` does not depend on
the `log` flag - the value returned with the log enabled equals the value
returned without it, and enabling the log only adds the diagnostics record
holding the coupling under key `T` (while with the flag off no record is
produced). -/
theorem gromov_wasserstein2_log_invariant (C1 C2 : Mat) (p q : Vec)
    (K : LossKernel) (fuel : Nat) (tol : ℚ) :
    (gromov_wasserstein2 C1 C2 p q K fuel tol true).1 =
      (gromov_wasserstein2 C1 C2 p q K fuel tol false).1 ∧
    (gromov_wasserstein2 C1 C2 p q K fuel tol true).2 =
      some ⟨gromov_wasserstein C1 C2 p q K fuel tol,
        (gromov_wasserstein2 C1 C2 p q K fuel tol false).1⟩ ∧
    (gromov_wasserstein2 C1 C2 p q K fuel tol false).2 = none :=
  ⟨rfl, rfl, rfl⟩

/-- C3: the stochastic solvers are pure functions of their inputs and the
explicit seed - two runs with the same inputs and equal seeds return identical
couplings, identical estimated distances and identical spread diagnostics. -/
theorem stochastic_solvers_deterministic (C1 C2 : Mat) (p q : Vec)
    (loss : ℚ → ℚ → ℚ) (maxIter : Nat) (alpha eps : ℚ) (seed1 seed2 : Nat)
    (h : seed1 = seed2) :
    pointwise_gromov_wasserstein C1 C2 p q loss maxIter alpha seed1 =
      pointwise_gromov_wasserstein C1 C2 p q loss maxIter alpha seed2 ∧
    sampled_gromov_wasserstein C1 C2 p q loss maxIter eps seed1 =
      sampled_gromov_wasserstein C1 C2 p q loss maxIter eps seed2 ∧
    (pointwise_gromov_wasserstein C1 C2 p q loss maxIter alpha
        seed1).2.gw_dist_estimated =
      (pointwise_gromov_wasserstein C1 C2 p q loss maxIter alpha
        seed2).2.gw_dist_estimated ∧
    (sampled_gromov_wasserstein C1 C2 p q loss maxIter eps seed1).2.gw_dist_std =
      (sampled_gromov_wasserstein C1 C2 p q loss maxIter eps seed2).2.gw_dist_std := by
  subst h
  exact ⟨rfl, rfl, rfl, rfl⟩

/-- Witness for C3 at a concrete instance and seed. -/
theorem stochastic_solvers_deterministic_witness :
    42 = 42 ∧
    pointwise_gromov_wasserstein [[0,1],[1,0]] [[0,1],[1,0]] [1/2, 1/2] [1/2, 1/2]
      (fun a b => |a - b|) 3 (1/2) 42 =
    pointwise_gromov_wasserstein [[0,1],[1,0]] [[0,1],[1,0]] [1/2, 1/2] [1/2, 1/2]
      (fun a b => |a - b|) 3 (1/2) 42 :=
  ⟨rfl, (stochastic_solvers_deterministic [[0,1],[1,0]] [[0,1],[1,0]]
    [1/2, 1/2] [1/2, 1/2] (fun a b => |a - b|) 3 (1/2) 1 42 42 rfl).1⟩

/-- C7: no solver mutates its arguments, and repeating a call on the unchanged
arguments reproduces the same outputs.  The argument record returned by a call
is the record passed in, and a second call made on that returned record yields
outputs identical to the first call's outputs, for every solver at once. -/
theorem solvers_pure_no_mutation (a : CallArgs) (K : LossKernel)
    (loss : ℚ → ℚ → ℚ) (alpha eps tol : ℚ) (fuel seed : Nat) :
    (solversCall a K loss alpha eps tol fuel seed).1 = a ∧
    (solversCall ((solversCall a K loss alpha eps tol fuel seed).1)
        K loss alpha eps tol fuel seed).2 =
      (solversCall a K loss alpha eps tol fuel seed).2 :=
  ⟨rfl, rfl⟩

theorem cgLoop_iters (p q : Vec) (M : Mat) (K : LossKernel) (C1 C2 : Mat)
    (alpha tol : ℚ) : ∀ (fuel done : Nat) (G : Mat) (fG : ℚ),
    (cgLoop p q M K C1 C2 alpha tol fuel done G fG).converged = false →
    (cgLoop p q M K C1 C2 alpha tol fuel done G fG).iters = done + fuel := by
  intro fuel
  induction fuel with
  | zero => intro done G fG _; rfl
  | succ fuel ih =>
    intro done G fG hconv
    simp only [cgLoop] at hconv ⊢
    by_cases hstop : |fgwObj alpha M K C1 C2 p q
        (combStep (lineSearchGamma
          (lsCoeffA alpha K C1 C2 (matSub (emd p q (fgwGrad alpha M K C1 C2 p q G)) G))
          (lsCoeffB alpha M K C1 C2 p q G
            (matSub (emd p q (fgwGrad alpha M K C1 C2 p q G)) G)))
          G (emd p q (fgwGrad alpha M K C1 C2 p q G))) - fG| ≤
        tol * |fgwObj alpha M K C1 C2 p q
        (combStep (lineSearchGamma
          (lsCoeffA alpha K C1 C2 (matSub (emd p q (fgwGrad alpha M K C1 C2 p q G)) G))
          (lsCoeffB alpha M K C1 C2 p q G
            (matSub (emd p q (fgwGrad alpha M K C1 C2 p q G)) G)))
          G (emd p q (fgwGrad alpha M K C1 C2 p q G)))|
    · rw [if_pos hstop] at hconv
      simp at hconv
    · rw [if_neg hstop] at hconv ⊢
      rw [ih (done + 1) _ _ hconv]
      omega

/-- C8: when the shapes are valid the checked solver never raises: it returns
the loop's final iterate together with the convergence flag and iteration
count, and when the flag reports non-convergence the iteration count equals the
iteration cap - the non-convergence is reported through the log rather than by
halting, and the best iterate found is still returned. -/
theorem gw_checked_cap_behavior (C1 C2 : Mat) (p q : Vec) (K : LossKernel)
    (fuel : Nat) (tol : ℚ) (h : gwShapeOk C1 C2 p q = true) :
    ∃ G conv iters,
      gromov_wasserstein_checked C1 C2 p q K fuel tol =
        Except.ok (G, conv, iters) ∧
      G = gromov_wasserstein C1 C2 p q K fuel tol ∧
      (conv = false → iters = fuel) := by
  refine ⟨gromov_wasserstein C1 C2 p q K fuel tol,
    (cgRun p q (zeroMat p.length q.length) K C1 C2 1 fuel tol).converged,
    (cgRun p q (zeroMat p.length q.length) K C1 C2 1 fuel tol).iters, ?_, rfl, ?_⟩
  · unfold gromov_wasserstein_checked
    rw [if_pos h]
    rfl
  · intro hconv
    unfold cgRun at hconv ⊢
    rw [cgLoop_iters p q (zeroMat p.length q.length) K C1 C2 1 tol fuel 0 _ _ hconv]
    omega

/-- Witness for C8 at a concrete well-shaped instance. -/
theorem gw_checked_cap_behavior_witness :
    gwShapeOk [[0,1],[1,0]] [[0,1],[1,0]] [1/2, 1/2] [1/2, 1/2] = true ∧
    ∃ G conv iters,
      gromov_wasserstein_checked [[0,1],[1,0]] [[0,1],[1,0]] [1/2, 1/2] [1/2, 1/2]
        square_loss 2 (1/1000) = Except.ok (G, conv, iters) ∧
      G = gromov_wasserstein [[0,1],[1,0]] [[0,1],[1,0]] [1/2, 1/2] [1/2, 1/2]
        square_loss 2 (1/1000) ∧
      (conv = false → iters = 2) := by
  have hok : gwShapeOk [[0,1],[1,0]] [[0,1],[1,0]] [1/2, 1/2] [1/2, 1/2] = true := by
    simp [gwShapeOk]
  exact ⟨hok, gw_checked_cap_behavior [[0,1],[1,0]] [[0,1],[1,0]] [1/2, 1/2]
    [1/2, 1/2] square_loss 2 (1/1000) hok⟩

/-! ### Shapes of the barycenter solvers -/

theorem emd_shape (a b : Vec) (M : Mat) : isShape (emd a b M) a.length b.length := by
  unfold emd
  by_cases hc : frobDot M (outerProd a b) < frobDot M (nwcorner a b)
  · simp only [if_pos hc]
    exact isShape_outer a b
  · simp only [if_neg hc]
    exact nwcorner_shape a b

theorem cgLoop_shape (p q : Vec) (M : Mat) (K : LossKernel) (C1 C2 : Mat)
    (alpha tol : ℚ) : ∀ (fuel done : Nat) (G : Mat) (fG : ℚ),
    isShape G p.length q.length →
    isShape (cgLoop p q M K C1 C2 alpha tol fuel done G fG).T p.length q.length := by
  intro fuel
  induction fuel with
  | zero => intro done G fG h; exact h
  | succ fuel ih =>
    intro done G fG h
    have hE := emd_shape p q (fgwGrad alpha M K C1 C2 p q G)
    simp only [cgLoop]
    split
    · exact isShape_combStep _ G _ p.length q.length h hE
    · exact ih (done + 1) _ _ (isShape_combStep _ G _ p.length q.length h hE)

theorem gromov_wasserstein_shape (C1 C2 : Mat) (p q : Vec) (K : LossKernel)
    (fuel : Nat) (tol : ℚ) :
    isShape (gromov_wasserstein C1 C2 p q K fuel tol) p.length q.length :=
  cgLoop_shape p q (zeroMat p.length q.length) K C1 C2 1 tol fuel 0 (outerProd p q)
    _ (isShape_outer p q)

theorem fused_gromov_wasserstein_shape (M C1 C2 : Mat) (p q : Vec)
    (K : LossKernel) (alpha : ℚ) (fuel : Nat) (tol : ℚ) :
    isShape (fused_gromov_wasserstein M C1 C2 p q K alpha fuel tol)
      p.length q.length :=
  cgLoop_shape p q M K C1 C2 alpha tol fuel 0 (outerProd p q) _ (isShape_outer p q)

theorem matMul_shape (A B : Mat) (a b c : Nat) (hA : isShape A a b)
    (hB : isShape B b c) (hb : 0 < b) : isShape (matMul A B) a c := by
  constructor
  · rw [matMul_length, hA.1]
  · intro r hr
    rw [matMul_rows A B r hr]
    exact (matTranspose_shape B b c hB hb).1

theorem foldr_matAdd_shape (L : List Mat) (k k' : Nat)
    (h : ∀ X ∈ L, isShape X k k') :
    isShape (L.foldr matAdd (zeroMat k k')) k k' := by
  induction L with
  | nil => exact isShape_zeroMat k k'
  | cons X rest ih =>
    simp only [List.foldr_cons]
    exact isShape_matAdd _ _ k k' (h X (by simp))
      (ih (fun t ht => h t (by simp [ht])))

theorem zipWith_smul_shape (ws : List ℚ) (Ms : List Mat) (k k' : Nat)
    (h : ∀ X ∈ Ms, isShape X k k') :
    ∀ Y ∈ List.zipWith smulMat ws Ms, isShape Y k k' := by
  intro Y hY
  obtain ⟨w, X, _, hX, rfl⟩ := exists_of_mem_zipWith smulMat ws Ms Y hY
  exact isShape_smulMat w X k k' (h X hX)

theorem weightSum_shape (k k' : Nat) (ws : List ℚ) (Ms : List Mat)
    (h : ∀ X ∈ Ms, isShape X k k') : isShape (weightSum k k' ws Ms) k k' :=
  foldr_matAdd_shape _ k k' (zipWith_smul_shape ws Ms k k' h)

theorem isShape_matDivEntry (A B : Mat) (m n : Nat) (hA : isShape A m n)
    (hB : isShape B m n) : isShape (matDivEntry A B) m n := by
  constructor
  · simp [matDivEntry, hA.1, hB.1]
  · intro r hr
    obtain ⟨x, y, hx, hy, rfl⟩ := exists_of_mem_zipWith _ A B r hr
    rw [List.length_zipWith, hA.2 x hx, hB.2 y hy]
    simp

theorem zipWith_mem_of_forall2 {α β : Type} (f : α → β → Mat) (P : Mat → Prop)
    (l1 : List α) (l2 : List β)
    (h : List.Forall₂ (fun a b => P (f a b)) l1 l2) :
    ∀ X ∈ List.zipWith f l1 l2, P X := by
  induction h with
  | nil => simp
  | cons hab _ ih =>
    intro X hX
    rcases List.mem_cons.mp hX with h1 | h1
    · rw [h1]; exact hab
    · exact ih X h1

theorem update_structure_shape (p : Vec) (lambdas : List ℚ) (Ts Cs : List Mat)
    (N : Nat) (hp : p.length = N)
    (h : List.Forall₂ (fun T Cm => ∃ ns, 0 < ns ∧ isShape T ns N ∧
      isShape Cm ns ns) Ts Cs) :
    isShape (update_structure p lambdas Ts Cs) N N := by
  unfold update_structure
  rw [hp]
  apply isShape_matDivEntry _ _ N N
  · apply weightSum_shape
    apply zipWith_mem_of_forall2
    apply h.imp
    intro T Cm hTC
    obtain ⟨ns, hns, hT, hC⟩ := hTC
    have h1 : isShape (matTranspose T) N ns := matTranspose_shape T ns N hT hns
    have h2 : isShape (matMul (matTranspose T) Cm) N ns :=
      matMul_shape _ _ N ns ns h1 hC hns
    exact matMul_shape _ _ N ns N h2 hT hns
  · have := isShape_outer p p
    rw [hp] at this
    exact this

theorem gwBaryLoop_shape (Cs : List Mat) (ps : List Vec) (p : Vec)
    (lambdas : List ℚ) (K : LossKernel) (innerFuel : Nat) (innerTol tol : ℚ)
    (N : Nat) (hp : p.length = N)
    (hf : List.Forall₂ (fun Cm a => isShape Cm a.length a.length ∧ a ≠ []) Cs ps) :
    ∀ (fuel : Nat) (C : Mat), isShape C N N →
    isShape (gwBaryLoop Cs ps p lambdas K innerFuel innerTol tol fuel C) N N := by
  intro fuel
  induction fuel with
  | zero => intro C h; exact h
  | succ fuel ih =>
    intro C h
    have hTs : List.Forall₂ (fun T Cm => ∃ ns, 0 < ns ∧ isShape T ns N ∧
        isShape Cm ns ns)
        (List.zipWith (fun Cs_s ps_s => gromov_wasserstein Cs_s C ps_s p K
          innerFuel innerTol) Cs ps) Cs := by
      clear ih h
      induction hf with
      | nil => exact List.Forall₂.nil
      | @cons Cm a rest1 rest2 hca _ ih2 =>
        refine List.Forall₂.cons ?_ ih2
        refine ⟨a.length, ?_, ?_, hca.1⟩
        · cases a with
          | nil => exact absurd rfl hca.2
          | cons x xs => simp
        · have := gromov_wasserstein_shape Cm C a p K innerFuel innerTol
          rw [hp] at this
          exact this
    have hup := update_structure_shape p lambdas _ Cs N hp hTs
    simp only [gwBaryLoop]
    split
    · exact hup
    · exact ih _ hup

/-- C6 first half: for every requested size and every family of input
structures with valid marginals, `gromov_barycenters` returns a structure
matrix of shape `(N, N)`. -/
theorem gromov_barycenters_shape (N : Nat) (Cs : List Mat) (ps : List Vec)
    (p : Vec) (lambdas : List ℚ) (K : LossKernel) (fuel : Nat) (tol : ℚ)
    (innerFuel : Nat) (innerTol : ℚ) (hp : p.length = N)
    (hf : List.Forall₂ (fun Cm a => isShape Cm a.length a.length ∧ a ≠ []) Cs ps) :
    isShape (gromov_barycenters N Cs ps p lambdas K fuel tol innerFuel innerTol)
      N N := by
  unfold gromov_barycenters
  apply gwBaryLoop_shape Cs ps p lambdas K innerFuel innerTol tol N hp hf fuel
  have := isShape_outer p p
  rw [hp] at this
  exact this

theorem update_features_shape (p : Vec) (d : Nat) (lambdas : List ℚ)
    (Ts Ys : List Mat) (N : Nat) (hp : p.length = N)
    (h : List.Forall₂ (fun T Y => ∃ ns, 0 < ns ∧ isShape T ns N ∧
      isShape Y ns d) Ts Ys) :
    isShape (update_features p d lambdas Ts Ys) N d := by
  subst hp
  unfold update_features
  have hW : isShape (weightSum p.length d lambdas
      (List.zipWith (fun T Y => matMul (matTranspose T) Y) Ts Ys)) p.length d := by
    apply weightSum_shape
    apply zipWith_mem_of_forall2
    apply h.imp
    intro T Y hTY
    obtain ⟨ns, hns, hT, hY⟩ := hTY
    exact matMul_shape _ _ p.length ns d (matTranspose_shape T ns p.length hT hns)
      hY hns
  constructor
  · rw [List.length_zipWith, hW.1]
    simp
  · intro r hr
    obtain ⟨pi, w, _, hw, rfl⟩ := exists_of_mem_zipWith _ p _ r hr
    rw [List.length_map]
    exact hW.2 w hw

theorem sqDistM_shape (Y X : Mat) : isShape (sqDistM Y X) Y.length X.length := by
  constructor
  · simp [sqDistM]
  · intro r hr
    simp [sqDistM] at hr
    obtain ⟨y, _, rfl⟩ := hr
    simp

theorem zip3W_updates_ok (X C : Mat) (p : Vec) (K : LossKernel) (alpha : ℚ)
    (innerFuel : Nat) (innerTol : ℚ) (N d : Nat) (hp : p.length = N) :
    ∀ (Ys Cs : List Mat) (ps : List Vec),
    List.Forall₂ (fun Y a => Y.length = a.length ∧ ∀ r ∈ Y, r.length = d) Ys ps →
    List.Forall₂ (fun Cm a => isShape Cm a.length a.length ∧ a ≠ []) Cs ps →
    List.Forall₂ (fun T Cm => ∃ ns, 0 < ns ∧ isShape T ns N ∧ isShape Cm ns ns)
      (zip3W (fun Y Cm a => fused_gromov_wasserstein (sqDistM Y X) Cm C a p K
        alpha innerFuel innerTol) Ys Cs ps) Cs ∧
    List.Forall₂ (fun T Y => ∃ ns, 0 < ns ∧ isShape T ns N ∧ isShape Y ns d)
      (zip3W (fun Y Cm a => fused_gromov_wasserstein (sqDistM Y X) Cm C a p K
        alpha innerFuel innerTol) Ys Cs ps) Ys := by
  intro Ys
  induction Ys with
  | nil =>
    intro Cs ps h1 h2
    cases h1
    cases h2
    exact ⟨List.Forall₂.nil, List.Forall₂.nil⟩
  | cons Y rest ih =>
    intro Cs ps h1 h2
    cases h1 with
    | cons hY h1tail =>
      cases h2 with
      | cons hC h2tail =>
        rename_i a as Cm CsT
        have hns : 0 < a.length := by
          cases a with
          | nil => exact absurd rfl hC.2
          | cons x xs => simp
        have hTsh : isShape (fused_gromov_wasserstein (sqDistM Y X) Cm C a p K
            alpha innerFuel innerTol) a.length N := by
          have := fused_gromov_wasserstein_shape (sqDistM Y X) Cm C a p K alpha
            innerFuel innerTol
          rw [hp] at this
          exact this
        have hrest := ih CsT as h1tail h2tail
        refine ⟨List.Forall₂.cons ⟨a.length, hns, hTsh, hC.1⟩ hrest.1,
          List.Forall₂.cons ⟨a.length, hns, hTsh, ?_⟩ hrest.2⟩
        exact ⟨hY.1, hY.2⟩

theorem fgwBaryLoop_shape (Ys Cs : List Mat) (ps : List Vec) (p : Vec)
    (lambdas : List ℚ) (alpha : ℚ) (fs ff : Bool) (K : LossKernel)
    (innerFuel : Nat) (innerTol tol : ℚ) (N d : Nat) (hp : p.length = N)
    (hd : featDim Ys = d)
    (hys : List.Forall₂ (fun Y a => Y.length = a.length ∧
      ∀ r ∈ Y, r.length = d) Ys ps)
    (hcs : List.Forall₂ (fun Cm a => isShape Cm a.length a.length ∧ a ≠ []) Cs ps) :
    ∀ (fuel : Nat) (st : Mat × Mat), isShape st.1 N d → isShape st.2 N N →
    isShape (fgwBaryLoop Ys Cs ps p lambdas alpha fs ff K innerFuel innerTol tol
      fuel st).1 N d ∧
    isShape (fgwBaryLoop Ys Cs ps p lambdas alpha fs ff K innerFuel innerTol tol
      fuel st).2 N N := by
  intro fuel
  induction fuel with
  | zero => intro st h1 h2; exact ⟨h1, h2⟩
  | succ fuel ih =>
    intro st h1 h2
    obtain ⟨X, C⟩ := st
    have hTs := zip3W_updates_ok X C p K alpha innerFuel innerTol N d hp Ys Cs ps
      hys hcs
    have hX2 : isShape (if ff then X else update_features p (featDim Ys) lambdas
        (zip3W (fun Y Cm a => fused_gromov_wasserstein (sqDistM Y X) Cm C a p K
          alpha innerFuel innerTol) Ys Cs ps) Ys) N d := by
      by_cases hff : ff = true
      · rw [if_pos hff]; exact h1
      · rw [if_neg hff, hd]
        exact update_features_shape p d lambdas _ Ys N hp hTs.2
    have hC2 : isShape (if fs then C else update_structure p lambdas
        (zip3W (fun Y Cm a => fused_gromov_wasserstein (sqDistM Y X) Cm C a p K
          alpha innerFuel innerTol) Ys Cs ps) Cs) N N := by
      by_cases hfs : fs = true
      · rw [if_pos hfs]; exact h2
      · rw [if_neg hfs]
        exact update_structure_shape p lambdas _ Cs N hp hTs.1
    have key : ∀ (X2 C2 : Mat), isShape X2 N d → isShape C2 N N →
        isShape (if matDist C2 C + matDist X2 X ≤ tol then (X2, C2)
          else fgwBaryLoop Ys Cs ps p lambdas alpha fs ff K innerFuel innerTol tol
            fuel (X2, C2)).1 N d ∧
        isShape (if matDist C2 C + matDist X2 X ≤ tol then (X2, C2)
          else fgwBaryLoop Ys Cs ps p lambdas alpha fs ff K innerFuel innerTol tol
            fuel (X2, C2)).2 N N := by
      intro X2 C2 hx hc
      split
      · exact ⟨hx, hc⟩
      · exact ih _ hx hc
    exact key _ _ hX2 hC2

/-- C6: for every requested barycenter size `N`, every family of input
structures (and features) with valid marginals, and every weighting,
`gromov_barycenters` returns an `N × N` structure matrix and `fgw_barycenters`
returns an `N × N` structure matrix together with an `N × featDim` feature
matrix, where `featDim` is the input features' dimension; caller-supplied
initial values, when frozen, must themselves have the right shape. -/
theorem barycenters_shape (N : Nat) (Ys Cs : List Mat) (ps : List Vec)
    (p : Vec) (lambdas : List ℚ) (alpha : ℚ) (fs ff : Bool)
    (init_C init_X : Mat) (K : LossKernel) (fuel : Nat) (tol : ℚ)
    (innerFuel : Nat) (innerTol : ℚ) (d : Nat) (hp : p.length = N)
    (hd : featDim Ys = d)
    (hys : List.Forall₂ (fun Y a => Y.length = a.length ∧
      ∀ r ∈ Y, r.length = d) Ys ps)
    (hcs : List.Forall₂ (fun Cm a => isShape Cm a.length a.length ∧ a ≠ []) Cs ps)
    (hiC : isShape init_C N N) (hiX : isShape init_X N d) :
    isShape (gromov_barycenters N Cs ps p lambdas K fuel tol innerFuel innerTol)
      N N ∧
    isShape (fgw_barycenters N Ys Cs ps lambdas alpha fs init_C ff init_X p K
      fuel tol innerFuel innerTol).1 N d ∧
    isShape (fgw_barycenters N Ys Cs ps lambdas alpha fs init_C ff init_X p K
      fuel tol innerFuel innerTol).2 N N := by
  refine ⟨gromov_barycenters_shape N Cs ps p lambdas K fuel tol innerFuel
    innerTol hp hcs, ?_⟩
  have hX0 : isShape (if ff then init_X else zeroMat N (featDim Ys)) N d := by
    by_cases hff : ff = true
    · rw [if_pos hff]; exact hiX
    · rw [if_neg hff, hd]; exact isShape_zeroMat N d
  have hC0 : isShape (if fs then init_C else outerProd p p) N N := by
    by_cases hfs : fs = true
    · rw [if_pos hfs]; exact hiC
    · rw [if_neg hfs]
      have := isShape_outer p p
      rw [hp] at this
      exact this
  exact fgwBaryLoop_shape Ys Cs ps p lambdas alpha fs ff K innerFuel innerTol tol
    N d hp hd hys hcs fuel _ hX0 hC0

/-- Witness for C6 at a concrete instance: one input structure on two points,
barycenter size 1, feature dimension 2. -/
theorem barycenters_shape_witness :
    (([1] : Vec).length = 1 ∧ featDim [[[0,0],[0,0]]] = 2 ∧
      List.Forall₂ (fun (Cm : Mat) (a : Vec) => isShape Cm a.length a.length ∧
        a ≠ []) [[[0,1],[1,0]]] [[1/2, 1/2]]) ∧
    isShape (gromov_barycenters 1 [[[0,1],[1,0]]] [[1/2, 1/2]] [1] [1]
      square_loss 1 (1/1000) 1 (1/1000)) 1 1 ∧
    isShape (fgw_barycenters 1 [[[0,0],[0,0]]] [[[0,1],[1,0]]] [[1/2, 1/2]] [1]
      (1/2) false [[0]] false [[0, 0]] [1] square_loss 1 (1/1000) 1 (1/1000)).1
      1 2 := by
  have hys : List.Forall₂ (fun (Y : Mat) (a : Vec) => Y.length = a.length ∧
      ∀ r ∈ Y, r.length = 2) [[[0,0],[0,0]]] [[1/2, 1/2]] := by
    refine List.Forall₂.cons ⟨by norm_num, ?_⟩ List.Forall₂.nil
    intro r hr
    rcases List.mem_cons.mp hr with h1 | h1
    · rw [h1]; rfl
    · rcases List.mem_cons.mp h1 with h2 | h2
      · rw [h2]; rfl
      · simp at h2
  have hcs : List.Forall₂ (fun (Cm : Mat) (a : Vec) => isShape Cm a.length
      a.length ∧ a ≠ []) [[[0,1],[1,0]]] [[1/2, 1/2]] := by
    refine List.Forall₂.cons ⟨⟨by norm_num, ?_⟩, by simp⟩ List.Forall₂.nil
    intro r hr
    rcases List.mem_cons.mp hr with h1 | h1
    · rw [h1]; rfl
    · rcases List.mem_cons.mp h1 with h2 | h2
      · rw [h2]; rfl
      · simp at h2
  have h := barycenters_shape 1 [[[0,0],[0,0]]] [[[0,1],[1,0]]] [[1/2, 1/2]] [1]
    [1] (1/2) false false [[0]] [[0, 0]] square_loss 1 (1/1000) 1 (1/1000) 2
    rfl rfl hys hcs ⟨rfl, by norm_num⟩ ⟨rfl, by norm_num⟩
  exact ⟨⟨rfl, rfl, hcs⟩, h.1, h.2.1⟩

/-- The rank-one decomposition used by the solvers encodes exactly the spec's
squared-difference loss: `f1 a + f2 b - h1 a * h2 b = (a - b)^2`. -/
theorem square_loss_decomposition (a b : ℚ) :
    kernelLoss square_loss a b = sqLoss a b := by
  simp only [kernelLoss, square_loss, sqLoss]
  ring
